import Mathlib

/-!
# ifacecodegen: the code generator of `generate.go`

A shallow embedding of `generate.go` (package `ifacecodegen`) and the properties
of its specification that were checked against it.

Conventions of the embedding

* A Go `string` is a Lean `String`, read as its sequence of runes (`String.data`);
  only valid UTF-8 text is covered.
* A Go pointer that may be `nil` is an `Option`; the elements of the slices
  `Package.Interfaces`, `Method.In`, `Method.Out` and `GenerateOptions.Imports`
  are taken to be non-nil.
* A Go `map` is a function from keys to `Option` values.
* The standard library and `golang.org/x/tools/imports` are not part of the
  repository. What `generate.go` needs from them is a parameter (`UnicodeTables`,
  `Toolchain`), except for the one regular expression of `generator.Generate`,
  whose matcher is written out (`ReplaceAllString`).
* A call ends by returning or by panicking; `Ending` and `Outcome` keep the two apart.
-/

namespace Ifacecodegen

/-! ## Data model (declared outside `generate.go`, used by it) -/

/-- Go `Parameter`. Its field `Type` is used by `generate.go` only through
`p.Type.String()`; `TypeString` holds the text that call returns (`Type` is a reserved
word of Lean). -/
structure Parameter where
  Name : String
  TypeString : String
  deriving DecidableEq, Repr

/-- Go `Method`: a name, the inputs `In` and the outputs `Out`. -/
structure Method where
  Name : String
  In : List Parameter
  Out : List Parameter
  deriving DecidableEq, Repr

/-- Go `Interface`: a name and its methods. -/
structure Interface where
  Name : String
  Methods : List Method
  deriving DecidableEq, Repr

/-- Go `Package`: a name and its interfaces, in order. -/
structure Package where
  Name : String
  Interfaces : List Interface
  deriving DecidableEq, Repr

/-- Go `Import`: the two string fields `generator.Generate` prints. -/
structure Import where
  Package : String
  Path : String
  deriving DecidableEq, Repr

/-! ## `unicode.IsLetter`, `unicode.IsDigit` -/

/-- The Unicode tables of Go's `unicode` package above the ASCII range: which runes
`≥ 128` are letters (category L) and which are decimal digits (category Nd). -/
structure UnicodeTables where
  letter : Char → Bool
  digit : Char → Bool

/-- Go `unicode.IsLetter`: on ASCII the letters are `a`-`z` and `A`-`Z`. -/
def unicodeIsLetter (u : UnicodeTables) (r : Char) : Bool :=
  if r.toNat < 128 then
    (97 ≤ r.toNat && r.toNat ≤ 122) || (65 ≤ r.toNat && r.toNat ≤ 90)
  else u.letter r

/-- Go `unicode.IsDigit`: on ASCII the digits are `0`-`9`. -/
def unicodeIsDigit (u : UnicodeTables) (r : Char) : Bool :=
  if r.toNat < 128 then 48 ≤ r.toNat && r.toNat ≤ 57 else u.digit r

/-- Tables with no letter and no digit above ASCII (used to evaluate ASCII examples). -/
def asciiTables : UnicodeTables := ⟨fun _ => false, fun _ => false⟩

/-! ## `sanitize` -/

/-- One iteration of the loop of `sanitize`: `t` is the text built so far, `r` the
next rune of the input. -/
def sanitizeStep (u : UnicodeTables) (t : List Char) (r : Char) : List Char :=
  if t = [] then
    if unicodeIsLetter u r || r == '_' then t ++ [r] else t ++ ['_']
  else
    if unicodeIsLetter u r || unicodeIsDigit u r || r == '_' then t ++ [r] else t ++ ['_']

/-- Go `sanitize`. -/
def sanitize (u : UnicodeTables) (s : String) : String :=
  let t := s.data.foldl (sanitizeStep u) []
  if t = ['_'] then "x" else String.mk t

/-! ## The package-qualifier regular expression and `parameterName` -/

/-- The character class `[\]\*\. ]` of `trimPackageNameRegExp`. -/
def isBoundary (c : Char) : Bool :=
  c == ']' || c == '*' || c == '.' || c == ' '

/-- The literal tail of the pattern once `pkgName` is spliced in: `pkgName` followed by
a dot. This reading of the pattern holds when `pkgName` has no regular-expression
metacharacter, in particular when it is made of letters, digits and underscores. -/
def qualifier (pkgName : String) : List Char :=
  pkgName.data ++ ['.']

/-- The scan of `ReplaceAllString` for the first alternative `[\]\*\. ]pkgName\.` with
replacement `${1}`, away from the start of the text. `skip` counts the runes of the
current match still to be dropped. At a boundary rune followed by the qualifier the
match is replaced by its group 1, the boundary rune, and the scan resumes after the
match; any other rune is copied. -/
def replaceScan (lit : List Char) : Nat → List Char → List Char
  | _, [] => []
  | skip + 1, _ :: rest => replaceScan lit skip rest
  | 0, c :: rest =>
    if isBoundary c && lit.isPrefixOf rest then c :: replaceScan lit lit.length rest
    else c :: replaceScan lit 0 rest

/-- A match of the first alternative at the very start of the text. -/
def matchesClassAtStart (lit : List Char) : List Char → Bool
  | [] => false
  | c :: rest => isBoundary c && lit.isPrefixOf rest

/-- All of `ReplaceAllString(src, "${1}")` for the pattern `([\]\*\. ]|^)pkgName\.`, on
runes. Matches are found left to right and do not overlap. At the start of the text the
first alternative is tried first; when it fails and the text starts with the qualifier,
the second alternative `^` matches with an empty group 1 and the qualifier is dropped.
After the start only the first alternative can match. -/
def replaceAll (lit : List Char) (src : List Char) : List Char :=
  if !matchesClassAtStart lit src && lit.isPrefixOf src then
    replaceScan lit lit.length src
  else replaceScan lit 0 src

/-- Go `trimPackageNameRegExp.ReplaceAllString(src, "${1}")` where
`trimPackageNameRegExp` is compiled from `pkgName`. -/
def ReplaceAllString (pkgName : String) (src : String) : String :=
  String.mk (replaceAll (qualifier pkgName) src.data)

/-- Go `parameterName`, the closure of `generator.Generate` over `pkgName`. -/
def parameterName (pkgName : String) (p : Parameter) : String :=
  ReplaceAllString pkgName p.TypeString

/-- A package name made of letters, digits and underscores. -/
def isPlainName (u : UnicodeTables) (pkgName : String) : Prop :=
  ∀ c ∈ pkgName.data, unicodeIsLetter u c = true ∨ unicodeIsDigit u c = true ∨ c = '_'

/-! ## Options, generator state, and the libraries `generate.go` calls -/

/-- A value stored in a `template.FuncMap`: one of the closures that
`generator.Generate` defines, named by the key it is stored under, or a function
supplied by the caller, told apart by a tag. -/
inductive TemplateFunc where
  | builtin (name : String)
  | supplied (tag : Nat)
  deriving DecidableEq, Repr

/-- Go `template.FuncMap`, a map from names to functions. -/
abbrev FuncMap := String → Option TemplateFunc

/-- The empty map `template.FuncMap{}`. -/
def emptyFuncMap : FuncMap := fun _ => none

/-- Go `funcMap[key] = f`. -/
def funcMapSet (funcMap : FuncMap) (key : String) (f : TemplateFunc) : FuncMap :=
  fun k => if k = key then some f else funcMap k

/-- Go `io.Reader` as `ioutil.ReadAll` sees it: the bytes read and the error, if any. -/
structure Reader where
  content : String
  err : Option String

/-- Go `GenerateOptions`. `Package`, `Template` and `Functions` may be `nil`. -/
structure GenerateOptions where
  Source : String
  Package : Option Package
  Interfaces : List String
  Template : Option Reader
  OverridePackage : String
  Imports : List Import
  Meta : String → Option String
  Functions : Option FuncMap

/-- Go `generator`: the buffer and the options. -/
structure generator where
  buf : String
  opts : GenerateOptions

/-- What `generate.go` takes from outside the repository.
* `quote`: the verb `%q` of `fmt` on a string.
* `regexpCompiles`: whether `regexp.MustCompile` accepts a pattern (it panics otherwise).
* `Tmpl`, `parse`: `template.New("template").Funcs(funcMap).Parse(text)`.
* `exec`: `t.ExecuteTemplate(&buf, "template", intf)`, the text written to the buffer
  and the error returned, if any.
* `process`: `goimports.Process("", data, options)`; `format`: `format.Source`. -/
structure Toolchain where
  unicode : UnicodeTables
  quote : String → String
  regexpCompiles : String → Bool
  Tmpl : Type
  parse : FuncMap → String → Except String Tmpl
  exec : Tmpl → Interface → String × Option String
  process : String → Except String String
  format : String → Except String String

/-- How a call of `generator.Generate` ends: `return nil`, `return err`, or a panic. -/
inductive Ending where
  | ok
  | error (err : String)
  | panic (value : String)
  deriving DecidableEq, Repr

/-- How a call of `Generate` ends: it returns `([]byte, error)`, where `none` is `nil`,
or it panics. -/
inductive Outcome where
  | returned (bytes : Option String) (err : Option String)
  | panicked (value : String)
  deriving DecidableEq, Repr

/-! ## `generator.p` and the header -/

/-- Go `generator.p`: `text` is the format with its arguments filled in; a newline
is added. -/
def generator.p (g : generator) (text : String) : generator :=
  { g with buf := g.buf ++ text ++ "\n" }

/-- The loop over `g.opts.Imports` in `generator.Generate`. -/
def importLines (tc : Toolchain) (pkgName : String) : List Import → generator → generator
  | [], g => g
  | impPkg :: rest, g =>
    if pkgName = impPkg.Path then importLines tc pkgName rest g
    else importLines tc pkgName rest (g.p (impPkg.Path ++ " " ++ tc.quote impPkg.Package))

/-- The package name `generator.Generate` settles on. -/
def effectivePackageName (tc : Toolchain) (opts : GenerateOptions) (pkg : Package) : String :=
  let pkgName := sanitize tc.unicode pkg.Name
  if opts.OverridePackage ≠ "" then opts.OverridePackage else pkgName

/-- Lines 63-65 of `generate.go`: the provenance header. -/
def generator.provenance (g : generator) : generator :=
  ((g.p "// Code generated by ifacecodegen tool. DO NOT EDIT.").p
    ("// Source: " ++ g.opts.Source)).p ""

/-- Lines 71-80 of `generate.go`: the package clause and the import block. -/
def generator.packageAndImports (tc : Toolchain) (pkgName : String) (g : generator) :
    generator :=
  (importLines tc pkgName g.opts.Imports
    (((g.p ("package " ++ pkgName)).p "").p "import (")).p ")"

/-- The pattern text handed to `regexp.MustCompile`. -/
def trimPackageNamePattern (pkgName : String) : String :=
  "([\\]\\*\\. ]|^)" ++ pkgName ++ "\\."

/-! ## The template functions -/

/-- The keys under which `generator.Generate` stores its closures, in the order of the
assignments. -/
def builtinNames : List String :=
  ["meta", "parameter", "input_var_type", "input_parameters", "input_calls",
   "output_vars", "output_parameters", "output_var_error", "output_var_type", "return"]

/-- Lines 97-178 of `generate.go`: every built-in is assigned into `funcMap`. -/
def registerBuiltins (funcMap : FuncMap) : FuncMap :=
  builtinNames.foldl (fun m name => funcMapSet m name (TemplateFunc.builtin name)) funcMap

/-- Go `outputVarType`. -/
def outputVarType (pkgName : String) (m : Method) (typeName : String) : String :=
  match m.Out.find? (fun out => parameterName pkgName out == typeName) with
  | some out => out.Name
  | none => ""

/-- Go `funcMap["meta"]`. -/
def metaLookup (Meta : String → Option String) (key : String) (defaultValue : List String) :
    String :=
  match Meta key with
  | some v => v
  | none =>
    match defaultValue with
    | d :: _ => d
    | [] => ""

/-- Go `funcMap["input_var_type"]`. -/
def input_var_type (pkgName : String) (m : Method) (typ : String) : String :=
  match m.In.find? (fun inp => parameterName pkgName inp == typ) with
  | some inp => inp.Name
  | none => ""

/-- Go `strings.Join`: the elements with `sep` between them. -/
def stringsJoin : List String → String → String
  | [], _ => ""
  | [a], _ => a
  | a :: b :: rest, sep => a ++ sep ++ stringsJoin (b :: rest) sep

/-- Go `strings.HasPrefix`. -/
def stringsHasPrefix (s pre : String) : Bool :=
  pre.data.isPrefixOf s.data

/-- Go `funcMap["input_parameters"]`: the loop appends to `ret`, starting from the empty
slice, and the result is joined. -/
def input_parameters (pkgName : String) (m : Method) : String :=
  let ret := m.In.foldl
    (fun ret inp => ret ++ [inp.Name ++ " " ++ parameterName pkgName inp]) []
  stringsJoin ret ", "

/-- Go `funcMap["input_calls"]`. -/
def input_calls (pkgName : String) (m : Method) : String :=
  let ret := m.In.foldl
    (fun ret inp =>
      let name := inp.Name
      let name := if stringsHasPrefix (parameterName pkgName inp) "..." then name ++ "..."
        else name
      ret ++ [name]) []
  stringsJoin ret ", "

/-- Go `funcMap["output_vars"]`. -/
def output_vars (m : Method) : String :=
  let ret := m.Out.foldl (fun ret out => ret ++ [out.Name]) []
  let retString := stringsJoin ret ", "
  retString

/-- Go `funcMap["output_parameters"]`. -/
def output_parameters (pkgName : String) (m : Method) : String :=
  let ret := m.Out.foldl
    (fun ret out => ret ++ [out.Name ++ " " ++ parameterName pkgName out]) []
  "(" ++ stringsJoin ret ", " ++ ")"

/-- Go `funcMap["output_var_error"]`. -/
def output_var_error (pkgName : String) (m : Method) : String :=
  outputVarType pkgName m "error"

/-- Go `funcMap["return"]`. -/
def returnKeyword (m : Method) : String :=
  if m.Out.length > 0 then "return" else ""

/-! ## Selection and rendering of the interfaces -/

/-- The loop of the allow-list closure: `true` at the first element equal to `name`. -/
def nameListed : List String → String → Bool
  | [], _ => false
  | a :: rest, name => if a = name then true else nameListed rest name

/-- Go `shouldGenerateInterface`, as set up from `g.opts.Interfaces`. -/
def shouldGenerateInterface (Interfaces : List String) (name : String) : Bool :=
  if Interfaces.length > 0 then nameListed Interfaces name else true

/-- The loop over `g.opts.Package.Interfaces`: `buf` is the buffer so far. A failed
execution ends the loop with its error, after whatever it wrote to the buffer. -/
def renderInterfaces (tc : Toolchain) (t : tc.Tmpl) (should : String → Bool) :
    List Interface → String → Ending × String
  | [], buf => (Ending.ok, buf)
  | intf :: rest, buf =>
    if !should intf.Name then renderInterfaces tc t should rest buf
    else
      match tc.exec t intf with
      | (out, some err) => (Ending.error err, buf ++ out)
      | (out, none) => renderInterfaces tc t should rest (buf ++ out ++ "\n")

/-! ## `generator.Generate`, `generator.Output`, `Generate` -/

/-- Go `generator.Generate`. The result is how the call ends and the generator after
it; `opts.Functions` of that generator is the map `funcMap` the closures were stored in.
The values of the run-time panics are shortened. -/
def generator.Generate (tc : Toolchain) (g : generator) : Ending × generator :=
  let g := g.provenance
  match g.opts.Package with
  | none => (Ending.panic "invalid memory address or nil pointer dereference", g)
  | some pkg =>
    let pkgName := effectivePackageName tc g.opts pkg
    let g := g.packageAndImports tc pkgName
    if !tc.regexpCompiles (trimPackageNamePattern pkgName) then
      (Ending.panic ("regexp: Compile(" ++ tc.quote (trimPackageNamePattern pkgName) ++ ")"), g)
    else
      match g.opts.Functions with
      | none => (Ending.panic "assignment to entry in nil map", g)
      | some funcMap =>
        let funcMap := registerBuiltins funcMap
        let g := { g with opts := { g.opts with Functions := some funcMap } }
        match g.opts.Template with
        | none => (Ending.panic "invalid memory address or nil pointer dereference", g)
        | some rd =>
          match rd.err with
          | some err => (Ending.error err, g)
          | none =>
            match tc.parse funcMap rd.content with
            | Except.error err => (Ending.panic err, g)
            | Except.ok t =>
              let r := renderInterfaces tc t (shouldGenerateInterface g.opts.Interfaces)
                pkg.Interfaces g.buf
              (r.1, { g with buf := r.2 })

/-- Go `generator.Output`. -/
def generator.Output (tc : Toolchain) (g : generator) : Outcome :=
  let data := g.buf
  match tc.process data with
  | Except.error err =>
    Outcome.returned none
      (some ("Failed to run imports on generated source code: " ++ err ++ "\n" ++ data))
  | Except.ok src =>
    let data := src
    match tc.format data with
    | Except.error err =>
      Outcome.returned none
        (some ("Failed to format generated source code: " ++ err ++ "\n" ++ data))
    | Except.ok src => Outcome.returned (some src) none

/-- Lines 40-46 of `generate.go`: a `nil` map `opts.Functions` is replaced by a fresh
empty map, and the generator starts with an empty buffer. -/
def initialGenerator (opts : GenerateOptions) : generator :=
  { buf := "",
    opts := match opts.Functions with
      | none => { opts with Functions := some emptyFuncMap }
      | some _ => opts }

/-- Go `Generate`. The second component is the options as the caller finds them after
the call: `opts` is passed by value, so only the map `Functions`, when the caller
supplied one, and the data behind `Package`, `Imports` and `Meta` could differ. (The
read position of `Template` is not represented.) -/
def Generate (tc : Toolchain) (opts : GenerateOptions) : Outcome × GenerateOptions :=
  match opts.Package with
  | none => (Outcome.returned none (some "Package is nil"), opts)
  | some _ =>
    match opts.Template with
    | none => (Outcome.returned none (some "Template is nil"), opts)
    | some _ =>
      let g := initialGenerator opts
      let r := g.Generate tc
      let after : GenerateOptions :=
        match opts.Functions with
        | none => { r.2.opts with Functions := none }
        | some _ => r.2.opts
      match r.1 with
      | Ending.panic v => (Outcome.panicked v, after)
      | Ending.error err => (Outcome.returned none (some err), after)
      | Ending.ok => (r.2.Output tc, after)

/-! ## A small toolchain for evaluating examples -/

/-- A toy template engine and toolchain: a template is its text; the text `"\x7b\x7b"` does
not parse; executing on an interface named `"Boom"` fails after writing `"partial"`,
and on any other interface writes the template text followed by the interface name.
Import processing and formatting leave the text alone. -/
def toyToolchain : Toolchain where
  unicode := asciiTables
  quote := fun s => "\"" ++ s ++ "\""
  regexpCompiles := fun _ => true
  Tmpl := String
  parse := fun _ text => if text = "\x7b\x7b" then Except.error "unclosed action" else Except.ok text
  exec := fun t intf =>
    if intf.Name = "Boom" then ("partial", some "exec failed") else (t ++ intf.Name, none)
  process := fun s => Except.ok s
  format := fun s => Except.ok s

/-- The package of the specification's end-to-end scenario, with two more interfaces. -/
def examplePackage : Package :=
  { Name := "svc",
    Interfaces :=
      [ { Name := "Fetcher",
          Methods := [ { Name := "Get", In := [⟨"id", "string"⟩],
                         Out := [⟨"v", "string"⟩, ⟨"err", "error"⟩] } ] },
        { Name := "Storer", Methods := [] },
        { Name := "Closer", Methods := [] } ] }

/-- Options for `examplePackage`: template text `// `, no allow-list, one import that is
kept and one whose path is the package name, and an empty function map. -/
def exampleOptions : GenerateOptions :=
  { Source := "svc.go",
    Package := some examplePackage,
    Interfaces := [],
    Template := some ⟨"// ", none⟩,
    OverridePackage := "",
    Imports := [⟨"context", "ctx"⟩, ⟨"example.com/svc", "svc"⟩],
    Meta := fun _ => none,
    Functions := some emptyFuncMap }

/-- A text for what a function map binds to a name. -/
def describeBinding : Option TemplateFunc → String
  | none => "unbound"
  | some (TemplateFunc.builtin name) => "built-in " ++ name
  | some (TemplateFunc.supplied _) => "supplied by the caller"

/-- A toolchain that shows which function map the template is compiled with: the parser
always succeeds, and the compiled template is the text that says what the function map
handed to the parser binds to `name`; executing the template writes that text. The rest is
as in `toyToolchain`. -/
def probeToolchain (name : String) : Toolchain where
  unicode := asciiTables
  quote := fun s => "\"" ++ s ++ "\""
  regexpCompiles := fun _ => true
  Tmpl := String
  parse := fun funcMap _ => Except.ok (describeBinding (funcMap name))
  exec := fun t _ => (t, none)
  process := fun s => Except.ok s
  format := fun s => Except.ok s

/-- A caller's function map that binds `meta`, the name of a built-in, and `mine`. -/
def callerFuncMap : FuncMap :=
  funcMapSet (funcMapSet emptyFuncMap "meta" (TemplateFunc.supplied 1)) "mine"
    (TemplateFunc.supplied 2)

/-- The options `exampleOptions` with the allow-list `Fetcher` and the function map
`callerFuncMap`. -/
def callerOptions : GenerateOptions :=
  { exampleOptions with Interfaces := ["Fetcher"], Functions := some callerFuncMap }

/-- A method with a plain, a variadic and a pointer input, two inputs of one rendered
type among them, and a value and an error output, for package `svc`. -/
def exampleMethod : Method :=
  { Name := "Put",
    In := [⟨"key", "string"⟩, ⟨"opts", "...svc.Option"⟩, ⟨"p", "*svc.Item"⟩, ⟨"q", "*Item"⟩],
    Out := [⟨"v", "svc.Value"⟩, ⟨"err", "error"⟩, ⟨"err2", "error"⟩] }

/-! ## Notions of the specification -/

/-- A valid identifier, in the words of the specification: non-empty, the first rune a
letter or an underscore, every later rune a letter, a digit or an underscore. -/
def isIdentifier (u : UnicodeTables) (t : String) : Bool :=
  match t.data with
  | [] => false
  | c :: rest =>
    (unicodeIsLetter u c || c == '_') &&
      rest.all (fun r => unicodeIsLetter u r || unicodeIsDigit u r || r == '_')

/-- The runes of the character class of `trimPackageNameRegExp`. -/
def classRunes : List Char := [']', '*', '.', ' ']

/-- The type-boundary markers the specification names: pointer, slice and space. -/
def specBoundaryRunes : List Char := ['*', ']', ' ']

/-- The text `s` has an occurrence of `lit` anchored at a boundary: at the start of `s`,
or right after one of the runes `marks`. -/
def anchoredOccurrence (marks : List Char) (lit s : List Char) : Prop :=
  lit <+: s ∨ ∃ c ∈ marks, (c :: lit) <:+: s

instance (marks lit s : List Char) : Decidable (anchoredOccurrence marks lit s) := by
  unfold anchoredOccurrence
  infer_instance

instance (u : UnicodeTables) (pkgName : String) : Decidable (isPlainName u pkgName) := by
  unfold isPlainName
  infer_instance

/-- An interface name is selected by the allow-list, in the words of the specification:
every name when the list is empty, the members of the list otherwise. -/
def selected (allow : List String) (name : String) : Prop :=
  allow = [] ∨ name ∈ allow

instance (allow : List String) (name : String) : Decidable (selected allow name) := by
  unfold selected
  infer_instance

/-- The texts of a list, one after the other. -/
def concatAll : List String → String
  | [] => ""
  | a :: rest => a ++ concatAll rest

/-- The header, package clause and import block that `generator.Generate` writes for
the options `opts` and the package `pkg`, as a text. -/
def headerBlock (tc : Toolchain) (opts : GenerateOptions) (pkg : Package) : String :=
  ((generator.mk "" opts).provenance.packageAndImports tc
    (effectivePackageName tc opts pkg)).buf

/-- What the loop of `sanitize` makes of a rune after the first one. -/
def laterRune (u : UnicodeTables) (r : Char) : Char :=
  if unicodeIsLetter u r || unicodeIsDigit u r || r == '_' then r else '_'

/-- What the loop of `sanitize` makes of the first rune. -/
def firstRune (u : UnicodeTables) (r : Char) : Char :=
  if unicodeIsLetter u r || r == '_' then r else '_'

/-- The rune-by-rune replacement the specification describes for `sanitize`: the first
rune is kept when it is a letter or an underscore, a later rune when it is a letter, a
digit or an underscore, and every other rune becomes one underscore. -/
def replaceRunes (u : UnicodeTables) (s : String) : String :=
  match s.data with
  | [] => ""
  | c :: rest => String.mk (firstRune u c :: rest.map (laterRune u))

/-! ## Lemmas on `sanitize` -/

theorem sanitizeStep_nil (u : UnicodeTables) (r : Char) :
    sanitizeStep u [] r = [firstRune u r] := by
  unfold sanitizeStep firstRune
  by_cases h : (unicodeIsLetter u r || r == '_') = true <;> simp [h]

theorem sanitizeStep_cons (u : UnicodeTables) (a : Char) (t : List Char) (r : Char) :
    sanitizeStep u (a :: t) r = a :: t ++ [laterRune u r] := by
  unfold sanitizeStep laterRune
  by_cases h : (unicodeIsLetter u r || unicodeIsDigit u r || r == '_') = true <;> simp [h]

theorem foldl_sanitizeStep_cons (u : UnicodeTables) (rest : List Char) :
    ∀ (a : Char) (t : List Char),
      rest.foldl (sanitizeStep u) (a :: t) = a :: t ++ rest.map (laterRune u) := by
  induction rest with
  | nil => intro a t; simp
  | cons r rest ih =>
    intro a t
    rw [List.foldl_cons, sanitizeStep_cons, List.cons_append, ih]
    simp

theorem foldl_sanitizeStep_start (u : UnicodeTables) (c : Char) (rest : List Char) :
    (c :: rest).foldl (sanitizeStep u) [] = firstRune u c :: rest.map (laterRune u) := by
  rw [List.foldl_cons, sanitizeStep_nil, foldl_sanitizeStep_cons]
  simp

theorem firstRune_ok (u : UnicodeTables) (c : Char) :
    (unicodeIsLetter u (firstRune u c) || firstRune u c == '_') = true := by
  unfold firstRune
  by_cases h : (unicodeIsLetter u c || c == '_') = true
  · simp only [h, if_true]
  · simp [h]

theorem laterRune_ok (u : UnicodeTables) (r : Char) :
    (unicodeIsLetter u (laterRune u r) || unicodeIsDigit u (laterRune u r)
      || laterRune u r == '_') = true := by
  unfold laterRune
  by_cases h : (unicodeIsLetter u r || unicodeIsDigit u r || r == '_') = true
  · simp only [h, if_true]
  · simp [h]

theorem firstRune_idem (u : UnicodeTables) (c : Char) :
    firstRune u (firstRune u c) = firstRune u c := by
  have h := firstRune_ok u c
  generalize firstRune u c = d at h
  unfold firstRune
  rw [if_pos h]

theorem laterRune_idem (u : UnicodeTables) (r : Char) :
    laterRune u (laterRune u r) = laterRune u r := by
  have h := laterRune_ok u r
  generalize laterRune u r = d at h
  unfold laterRune
  rw [if_pos h]

/-- What `sanitize` computes, in terms of the rune-by-rune replacement. -/
theorem sanitize_unfold (u : UnicodeTables) (s : String) :
    sanitize u s = if replaceRunes u s = "_" then "x" else replaceRunes u s := by
  obtain ⟨data⟩ := s
  cases data with
  | nil =>
    have h : replaceRunes u (String.mk []) = "" := rfl
    rw [h, if_neg (by decide)]
    rfl
  | cons c rest =>
    have h : replaceRunes u (String.mk (c :: rest))
        = String.mk (firstRune u c :: rest.map (laterRune u)) := rfl
    rw [h]
    unfold sanitize
    simp only [foldl_sanitizeStep_start]
    by_cases ht : firstRune u c :: rest.map (laterRune u) = ['_']
    · rw [if_pos ht, if_pos (congrArg String.mk ht)]
    · rw [if_neg ht, if_neg (fun e => ht (congrArg String.data e))]

theorem replaceRunes_length (u : UnicodeTables) (s : String) :
    (replaceRunes u s).length = s.length := by
  obtain ⟨data⟩ := s
  cases data with
  | nil => rfl
  | cons c rest =>
    show (firstRune u c :: rest.map (laterRune u)).length = (c :: rest).length
    simp

theorem replaceRunes_idem (u : UnicodeTables) (s : String) :
    replaceRunes u (replaceRunes u s) = replaceRunes u s := by
  obtain ⟨data⟩ := s
  cases data with
  | nil => rfl
  | cons c rest =>
    show String.mk (firstRune u (firstRune u c)
        :: (rest.map (laterRune u)).map (laterRune u))
      = String.mk (firstRune u c :: rest.map (laterRune u))
    rw [firstRune_idem, List.map_map]
    congr 2
    apply List.map_congr_left
    intro r _
    exact laterRune_idem u r

/-! ## Lemmas on the qualifier scan -/

theorem isBoundary_iff (c : Char) : isBoundary c = true ↔ c ∈ classRunes := by
  simp [isBoundary, classRunes, or_assoc]

theorem replaceScan_skip (lit : List Char) :
    ∀ (s : List Char) (k : Nat), replaceScan lit k s = replaceScan lit 0 (s.drop k) := by
  intro s
  induction s with
  | nil => intro k; simp [replaceScan]
  | cons c rest ih =>
    intro k
    cases k with
    | zero => rfl
    | succ k => simp only [replaceScan, List.drop_succ_cons]; exact ih k

theorem replaceScan_match (lit : List Char) (c : Char) (rest : List Char)
    (hc : isBoundary c = true) :
    replaceScan lit 0 (c :: (lit ++ rest)) = c :: replaceScan lit 0 rest := by
  have hp : lit.isPrefixOf (lit ++ rest) = true := by
    rw [List.isPrefixOf_iff_prefix]; exact List.prefix_append lit rest
  simp only [replaceScan, hc, hp, Bool.and_self, if_true]
  rw [replaceScan_skip, List.drop_left]

theorem replaceScan_copy (lit : List Char) (c : Char) (rest : List Char)
    (h : ¬ (isBoundary c = true ∧ lit <+: rest)) :
    replaceScan lit 0 (c :: rest) = c :: replaceScan lit 0 rest := by
  have : (isBoundary c && lit.isPrefixOf rest) = false := by
    rw [Bool.and_eq_false_iff]
    by_cases hc : isBoundary c = true
    · right
      rw [Bool.eq_false_iff]
      intro hp
      exact h ⟨hc, List.isPrefixOf_iff_prefix.mp hp⟩
    · left; simpa using hc
  simp only [replaceScan, this]
  simp

theorem replaceScan_head (lit : List Char) (c : Char) (rest : List Char) :
    ∃ r, replaceScan lit 0 (c :: rest) = c :: r := by
  by_cases h : (isBoundary c && lit.isPrefixOf rest) = true
  · exact ⟨replaceScan lit lit.length rest, by simp only [replaceScan, h, if_true]⟩
  · exact ⟨replaceScan lit 0 rest, by simp [replaceScan, h]⟩

/-- Without a match of the first alternative the scan copies the text. -/
theorem replaceScan_of_no_match (lit : List Char) :
    ∀ s : List Char, (∀ c ∈ classRunes, ¬ (c :: lit) <:+: s) → replaceScan lit 0 s = s := by
  intro s
  induction s with
  | nil => intro _; rfl
  | cons c rest ih =>
    intro h
    rw [replaceScan_copy, ih]
    · intro c' hc' hin
      exact h c' hc' (hin.trans (List.suffix_cons c rest).isInfix)
    · rintro ⟨hc, hp⟩
      refine h c ((isBoundary_iff c).mp hc) (List.IsPrefix.isInfix ?_)
      exact (List.prefix_cons_inj c).mpr hp

/-- Without an anchored occurrence of the qualifier the replacement copies the text. -/
theorem replaceAll_of_not_anchored (lit s : List Char)
    (h : ¬ anchoredOccurrence classRunes lit s) : replaceAll lit s = s := by
  have h1 : lit.isPrefixOf s = false := by
    rw [Bool.eq_false_iff]
    intro hp
    exact h (Or.inl (List.isPrefixOf_iff_prefix.mp hp))
  unfold replaceAll
  simp only [h1, Bool.and_false]
  exact replaceScan_of_no_match lit s (fun c hc hin => h (Or.inr ⟨c, hc, hin⟩))

/-- A rune of a name made of letters, digits and underscores is not in the class. -/
theorem isBoundary_of_plain (u : UnicodeTables) (c : Char)
    (h : unicodeIsLetter u c = true ∨ unicodeIsDigit u c = true ∨ c = '_') :
    isBoundary c = false := by
  rw [Bool.eq_false_iff]
  intro hb
  rw [isBoundary_iff] at hb
  simp only [classRunes, List.mem_cons, List.mem_singleton, List.not_mem_nil, or_false] at hb
  rcases hb with rfl | rfl | rfl | rfl <;>
    simp [unicodeIsLetter, unicodeIsDigit] at h

/-- A prefix `w.` of the scan's result, with `w` free of class runes, is a prefix of the
scanned text. -/
theorem prefix_of_prefix_replaceScan (lit : List Char) :
    ∀ (w : List Char), (∀ c ∈ w, isBoundary c = false) → ∀ x : List Char,
      (w ++ ['.']) <+: replaceScan lit 0 x → (w ++ ['.']) <+: x := by
  intro w
  induction w with
  | nil =>
    intro _ x hx
    cases x with
    | nil => simp [replaceScan] at hx
    | cons c rest =>
      obtain ⟨r, hr⟩ := replaceScan_head lit c rest
      rw [hr] at hx
      simp only [List.nil_append, List.cons_prefix_cons] at hx ⊢
      exact ⟨hx.1, List.nil_prefix⟩
  | cons a w ih =>
    intro hw x hx
    cases x with
    | nil => simp [replaceScan] at hx
    | cons c rest =>
      obtain ⟨r, hr⟩ := replaceScan_head lit c rest
      have hac : a = c := by
        rw [hr] at hx
        simp only [List.cons_append, List.cons_prefix_cons] at hx
        exact hx.1
      subst hac
      have ha : isBoundary a = false := hw a (List.mem_cons_self a w)
      rw [replaceScan_copy lit a rest (by simp [ha])] at hx
      simp only [List.cons_append, List.cons_prefix_cons, true_and] at hx ⊢
      exact ih (fun c hc => hw c (List.mem_cons_of_mem a hc)) rest hx

/-- The scan is idempotent on a text where no class rune is followed by the qualifier
twice. -/
theorem replaceScan_idem (w : List Char) (hw : ∀ c ∈ w, isBoundary c = false) :
    ∀ (n : Nat) (s : List Char), s.length ≤ n →
      (∀ c ∈ classRunes, ¬ (c :: ((w ++ ['.']) ++ (w ++ ['.']))) <:+: s) →
      replaceScan (w ++ ['.']) 0 (replaceScan (w ++ ['.']) 0 s)
        = replaceScan (w ++ ['.']) 0 s := by
  intro n
  induction n with
  | zero =>
    intro s hs _
    have : s = [] := List.length_eq_zero.mp (Nat.le_zero.mp hs)
    subst this
    rfl
  | succ n ih =>
    intro s hs hd
    cases s with
    | nil => rfl
    | cons c rest =>
      have hlen : rest.length ≤ n := by simpa using hs
      by_cases hm : isBoundary c = true ∧ (w ++ ['.']) <+: rest
      · obtain ⟨hc, rest', hrest⟩ := hm
        subst hrest
        have hd' : ∀ c' ∈ classRunes,
            ¬ (c' :: ((w ++ ['.']) ++ (w ++ ['.']))) <:+: rest' := fun c' hc' hin =>
          hd c' hc' (hin.trans ((List.suffix_append (w ++ ['.']) rest').isInfix.trans
            (List.suffix_cons c _).isInfix))
        have hnp : ¬ (w ++ ['.']) <+: rest' := by
          rintro ⟨t, ht⟩
          apply hd c ((isBoundary_iff c).mp hc)
          refine ⟨[], t, ?_⟩
          rw [← ht]
          simp
        have hlen' : rest'.length ≤ n := by
          have : rest'.length ≤ ((w ++ ['.']) ++ rest').length := by
            rw [List.length_append]; omega
          omega
        rw [replaceScan_match _ c rest' hc]
        rw [replaceScan_copy, ih rest' hlen' hd']
        rintro ⟨_, hp⟩
        exact hnp (prefix_of_prefix_replaceScan _ w hw rest' hp)
      · have hd' : ∀ c' ∈ classRunes,
            ¬ (c' :: ((w ++ ['.']) ++ (w ++ ['.']))) <:+: rest := fun c' hc' hin =>
          hd c' hc' (hin.trans (List.suffix_cons c rest).isInfix)
        rw [replaceScan_copy _ c rest hm]
        rw [replaceScan_copy, ih rest hlen hd']
        rintro ⟨hc, hp⟩
        exact hm ⟨hc, prefix_of_prefix_replaceScan _ w hw rest hp⟩

/-- The whole replacement is idempotent on a text without an anchored occurrence of the
qualifier followed by itself. -/
theorem replaceAll_idem (w : List Char) (hw : ∀ c ∈ w, isBoundary c = false) (s : List Char)
    (hd : ¬ anchoredOccurrence classRunes ((w ++ ['.']) ++ (w ++ ['.'])) s) :
    replaceAll (w ++ ['.']) (replaceAll (w ++ ['.']) s) = replaceAll (w ++ ['.']) s := by
  have hds : ∀ c ∈ classRunes, ¬ (c :: ((w ++ ['.']) ++ (w ++ ['.']))) <:+: s :=
    fun c hc hin => hd (Or.inr ⟨c, hc, hin⟩)
  have key : ∀ x : List Char, ¬ (w ++ ['.']) <+: x →
      (∀ c ∈ classRunes, ¬ (c :: ((w ++ ['.']) ++ (w ++ ['.']))) <:+: x) →
      replaceAll (w ++ ['.']) (replaceScan (w ++ ['.']) 0 x) = replaceScan (w ++ ['.']) 0 x := by
    intro x hx hdx
    have h1 : (w ++ ['.']).isPrefixOf (replaceScan (w ++ ['.']) 0 x) = false := by
      rw [Bool.eq_false_iff]
      intro hp
      exact hx (prefix_of_prefix_replaceScan _ w hw x (List.isPrefixOf_iff_prefix.mp hp))
    unfold replaceAll
    simp only [h1, Bool.and_false]
    exact replaceScan_idem w hw x.length x (Nat.le_refl _) hdx
  by_cases hstart : (!matchesClassAtStart (w ++ ['.']) s && (w ++ ['.']).isPrefixOf s) = true
  · have hp : (w ++ ['.']) <+: s := by
      simp only [Bool.and_eq_true] at hstart
      exact List.isPrefixOf_iff_prefix.mp hstart.2
    obtain ⟨s', hs'⟩ := hp
    subst hs'
    have hrw : replaceAll (w ++ ['.']) ((w ++ ['.']) ++ s') = replaceScan (w ++ ['.']) 0 s' := by
      unfold replaceAll
      rw [if_pos hstart, replaceScan_skip, List.drop_left]
    rw [hrw]
    apply key
    · rintro ⟨t, ht⟩
      apply hd
      left
      refine ⟨t, ?_⟩
      rw [← ht]
      simp
    · exact fun c hc hin => hds c hc (hin.trans (List.suffix_append _ s').isInfix)
  · have hrw : replaceAll (w ++ ['.']) s = replaceScan (w ++ ['.']) 0 s := by
      unfold replaceAll
      rw [if_neg hstart]
    rw [hrw]
    by_cases hp : (w ++ ['.']) <+: s
    · -- the text starts with the qualifier and with a class rune followed by the qualifier
      have hcls : matchesClassAtStart (w ++ ['.']) s = true := by
        have := List.isPrefixOf_iff_prefix.mpr hp
        simpa [this] using hstart
      cases s with
      | nil => simp [matchesClassAtStart] at hcls
      | cons c rest =>
        simp only [matchesClassAtStart, Bool.and_eq_true] at hcls
        obtain ⟨hc, hpr⟩ := hcls
        have hpr := List.isPrefixOf_iff_prefix.mp hpr
        cases w with
        | nil =>
          exfalso
          simp only [List.nil_append, List.cons_prefix_cons] at hp hpr
          obtain ⟨t, ht⟩ := hpr
          apply hd
          left
          refine ⟨t, ?_⟩
          rw [← ht, ← hp.1]
          simp
        | cons a w =>
          exfalso
          simp only [List.cons_append, List.cons_prefix_cons] at hp
          have := hw a (List.mem_cons_self a w)
          rw [hp.1] at this
          rw [this] at hc
          exact Bool.false_ne_true hc
    · exact key s hp hds

/-- The scan never makes a text longer. -/
theorem replaceScan_length_le (lit : List Char) :
    ∀ (s : List Char) (k : Nat), (replaceScan lit k s).length ≤ s.length := by
  intro s
  induction s with
  | nil => intro k; simp [replaceScan]
  | cons c rest ih =>
    intro k
    cases k with
    | succ k =>
      simp only [replaceScan, List.length_cons]
      exact Nat.le_succ_of_le (ih k)
    | zero =>
      simp only [replaceScan]
      split
      · simp only [List.length_cons]; exact Nat.succ_le_succ (ih _)
      · simp only [List.length_cons]; exact Nat.succ_le_succ (ih _)

/-- A class rune followed by the qualifier makes the scan's result strictly shorter. -/
theorem replaceScan_length_lt (lit : List Char) (hl : lit ≠ []) :
    ∀ s : List Char, (∃ c ∈ classRunes, (c :: lit) <:+: s) →
      (replaceScan lit 0 s).length < s.length := by
  have hpos : 0 < lit.length := List.length_pos.mpr hl
  intro s
  induction s with
  | nil =>
    rintro ⟨c, _, hin⟩
    simp at hin
  | cons x rest ih =>
    rintro ⟨c, hc, hin⟩
    by_cases hm : isBoundary x = true ∧ lit <+: rest
    · obtain ⟨hx, rest', hrest⟩ := hm
      subst hrest
      rw [replaceScan_match _ x rest' hx]
      have := replaceScan_length_le lit rest' 0
      simp only [List.length_cons, List.length_append]
      omega
    · rw [replaceScan_copy _ x rest hm]
      rcases List.infix_cons_iff.mp hin with hpre | hin'
      · exfalso
        rw [List.cons_prefix_cons] at hpre
        exact hm ⟨by rw [← hpre.1]; exact (isBoundary_iff c).mpr hc, hpre.2⟩
      · have := ih ⟨c, hc, hin'⟩
        simp only [List.length_cons]
        omega

/-- An anchored occurrence of the qualifier makes the replacement change the text. -/
theorem replaceAll_ne_of_anchored (lit : List Char) (hl : lit ≠ []) (s : List Char)
    (h : anchoredOccurrence classRunes lit s) : replaceAll lit s ≠ s := by
  have hpos : 0 < lit.length := List.length_pos.mpr hl
  have hlt : (replaceAll lit s).length < s.length := by
    unfold replaceAll
    by_cases hstart : (!matchesClassAtStart lit s && lit.isPrefixOf s) = true
    · rw [if_pos hstart, replaceScan_skip]
      have hp : lit <+: s := by
        simp only [Bool.and_eq_true] at hstart
        exact List.isPrefixOf_iff_prefix.mp hstart.2
      have h1 := replaceScan_length_le lit (s.drop lit.length) 0
      have h2 := hp.length_le
      rw [List.length_drop] at h1
      omega
    · rw [if_neg hstart]
      apply replaceScan_length_lt lit hl
      rcases h with hp | hin
      · have hcls : matchesClassAtStart lit s = true := by
          have := List.isPrefixOf_iff_prefix.mpr hp
          simpa [this] using hstart
        cases s with
        | nil => simp [matchesClassAtStart] at hcls
        | cons c rest =>
          simp only [matchesClassAtStart, Bool.and_eq_true] at hcls
          exact ⟨c, (isBoundary_iff c).mp hcls.1,
            ((List.prefix_cons_inj c).mpr (List.isPrefixOf_iff_prefix.mp hcls.2)).isInfix⟩
      · exact hin
  intro e
  rw [e] at hlt
  exact Nat.lt_irrefl _ hlt

/-- The scan copies a qualifier that stands at the front of the text. -/
theorem replaceScan_prefix_lit (lit : List Char) :
    ∀ (w : List Char), (∀ a ∈ w, isBoundary a = false) → ∀ y : List Char,
      (w ++ ['.']) <+: replaceScan lit 0 ((w ++ ['.']) ++ y) := by
  intro w
  induction w with
  | nil =>
    intro _ y
    obtain ⟨r, hr⟩ := replaceScan_head lit '.' y
    simp only [List.nil_append, List.singleton_append, hr, List.cons_prefix_cons, true_and]
    exact List.nil_prefix
  | cons a w ih =>
    intro hw y
    have ha : isBoundary a = false := hw a (List.mem_cons_self a w)
    simp only [List.cons_append]
    rw [replaceScan_copy lit a _ (by simp [ha]), List.cons_prefix_cons]
    exact ⟨rfl, by simpa using ih (fun c hc => hw c (List.mem_cons_of_mem a hc)) y⟩

/-- An occurrence that starts with a class rune does not start inside a run of runes
outside the class. -/
theorem infix_skip_plain (c : Char) (hc : isBoundary c = true) (L y : List Char) :
    ∀ (w : List Char), (∀ a ∈ w, isBoundary a = false) →
      (c :: L) <:+: (w ++ y) → (c :: L) <:+: y := by
  intro w
  induction w with
  | nil => intro _ h; simpa using h
  | cons a w ih =>
    intro hw h
    rw [List.cons_append] at h
    rcases List.infix_cons_iff.mp h with hpre | hin
    · exfalso
      rw [List.cons_prefix_cons] at hpre
      have ha := hw a (List.mem_cons_self a w)
      rw [← hpre.1, hc] at ha
      exact Bool.noConfusion ha
    · exact ih (fun b hb => hw b (List.mem_cons_of_mem a hb)) hin

/-- After the scan, a class rune followed by the qualifier twice leaves a class rune
followed by the qualifier. -/
theorem replaceScan_keeps_anchor (w : List Char) (hw : ∀ c ∈ w, isBoundary c = false) :
    ∀ (n : Nat) (s : List Char), s.length ≤ n →
      (∃ c ∈ classRunes, (c :: ((w ++ ['.']) ++ (w ++ ['.']))) <:+: s) →
      ∃ c ∈ classRunes, (c :: (w ++ ['.'])) <:+: replaceScan (w ++ ['.']) 0 s := by
  intro n
  induction n with
  | zero =>
    intro s hs h
    have : s = [] := List.length_eq_zero.mp (Nat.le_zero.mp hs)
    subst this
    obtain ⟨c, _, hin⟩ := h
    simp at hin
  | succ n ih =>
    intro s hs h
    cases s with
    | nil =>
      obtain ⟨c, _, hin⟩ := h
      simp at hin
    | cons x rest =>
      have hlen : rest.length ≤ n := by simpa using hs
      obtain ⟨c, hc, hin⟩ := h
      have hcb : isBoundary c = true := (isBoundary_iff c).mpr hc
      by_cases hm : isBoundary x = true ∧ (w ++ ['.']) <+: rest
      · obtain ⟨hx, rest', hrest⟩ := hm
        subst hrest
        rw [replaceScan_match _ x rest' hx]
        have hlen' : rest'.length ≤ n := by
          have : rest'.length ≤ ((w ++ ['.']) ++ rest').length := by
            rw [List.length_append]; omega
          omega
        by_cases hp : (w ++ ['.']) <+: rest'
        · obtain ⟨r, hr⟩ := hp
          subst hr
          refine ⟨x, (isBoundary_iff x).mp hx, List.IsPrefix.isInfix ?_⟩
          exact (List.prefix_cons_inj x).mpr (replaceScan_prefix_lit _ w hw r)
        · have hin' : (c :: ((w ++ ['.']) ++ (w ++ ['.']))) <:+: rest' := by
            rcases List.infix_cons_iff.mp hin with hpre | hin1
            · exfalso
              rw [List.cons_prefix_cons] at hpre
              exact hp ((List.prefix_append_right_inj _).mp hpre.2)
            · have e : (w ++ ['.']) ++ rest' = w ++ ('.' :: rest') := by simp
              rw [e] at hin1
              have hin2 := infix_skip_plain c hcb _ _ w hw hin1
              rcases List.infix_cons_iff.mp hin2 with hpre | hin3
              · exfalso
                rw [List.cons_prefix_cons] at hpre
                exact hp ((List.prefix_append _ _).trans hpre.2)
              · exact hin3
          obtain ⟨c', hc', hres⟩ := ih rest' hlen' ⟨c, hc, hin'⟩
          exact ⟨c', hc', hres.trans (List.suffix_cons x _).isInfix⟩
      · rw [replaceScan_copy _ x rest hm]
        have hin' : (c :: ((w ++ ['.']) ++ (w ++ ['.']))) <:+: rest := by
          rcases List.infix_cons_iff.mp hin with hpre | hin1
          · exfalso
            rw [List.cons_prefix_cons] at hpre
            exact hm ⟨by rw [← hpre.1]; exact hcb, (List.prefix_append _ _).trans hpre.2⟩
          · exact hin1
        obtain ⟨c', hc', hres⟩ := ih rest hlen ⟨c, hc, hin'⟩
        exact ⟨c', hc', hres.trans (List.suffix_cons x _).isInfix⟩

/-- After the replacement, an anchored occurrence of the qualifier followed by itself
leaves an anchored occurrence of the qualifier. -/
theorem replaceAll_keeps_anchor (w : List Char) (hw : ∀ c ∈ w, isBoundary c = false)
    (s : List Char)
    (h : anchoredOccurrence classRunes ((w ++ ['.']) ++ (w ++ ['.'])) s) :
    anchoredOccurrence classRunes (w ++ ['.']) (replaceAll (w ++ ['.']) s) := by
  by_cases hstart : (!matchesClassAtStart (w ++ ['.']) s && (w ++ ['.']).isPrefixOf s) = true
  · have hp : (w ++ ['.']) <+: s := by
      simp only [Bool.and_eq_true] at hstart
      exact List.isPrefixOf_iff_prefix.mp hstart.2
    obtain ⟨s', hs'⟩ := hp
    subst hs'
    have hrw : replaceAll (w ++ ['.']) ((w ++ ['.']) ++ s') = replaceScan (w ++ ['.']) 0 s' := by
      unfold replaceAll
      rw [if_pos hstart, replaceScan_skip, List.drop_left]
    rw [hrw]
    by_cases hp' : (w ++ ['.']) <+: s'
    · obtain ⟨r, hr⟩ := hp'
      subst hr
      exact Or.inl (replaceScan_prefix_lit _ w hw r)
    · rcases h with hpre | ⟨c, hc, hin⟩
      · exact absurd ((List.prefix_append_right_inj _).mp hpre) hp'
      · right
        have hcb : isBoundary c = true := (isBoundary_iff c).mpr hc
        have e : (w ++ ['.']) ++ s' = w ++ ('.' :: s') := by simp
        rw [e] at hin
        have hin2 := infix_skip_plain c hcb _ _ w hw hin
        rcases List.infix_cons_iff.mp hin2 with hpre | hin3
        · exfalso
          rw [List.cons_prefix_cons] at hpre
          exact hp' ((List.prefix_append _ _).trans hpre.2)
        · exact replaceScan_keeps_anchor w hw s'.length s' (Nat.le_refl _) ⟨c, hc, hin3⟩
  · have hrw : replaceAll (w ++ ['.']) s = replaceScan (w ++ ['.']) 0 s := by
      unfold replaceAll
      rw [if_neg hstart]
    rw [hrw]
    rcases h with hpre | hin
    · have hp : (w ++ ['.']) <+: s := (List.prefix_append _ _).trans hpre
      have hcls : matchesClassAtStart (w ++ ['.']) s = true := by
        have := List.isPrefixOf_iff_prefix.mpr hp
        simpa [this] using hstart
      cases s with
      | nil => simp [matchesClassAtStart] at hcls
      | cons c rest =>
        simp only [matchesClassAtStart, Bool.and_eq_true] at hcls
        obtain ⟨hc, _⟩ := hcls
        cases w with
        | nil =>
          left
          obtain ⟨r, hr⟩ := replaceScan_head ['.'] c rest
          simp only [List.nil_append, List.cons_prefix_cons] at hp
          simp only [List.nil_append, hr, List.cons_prefix_cons]
          exact ⟨hp.1, List.nil_prefix⟩
        | cons a w =>
          exfalso
          simp only [List.cons_append, List.cons_prefix_cons] at hp
          have := hw a (List.mem_cons_self a w)
          rw [hp.1] at this
          rw [this] at hc
          exact Bool.false_ne_true hc
    · exact Or.inr (replaceScan_keeps_anchor w hw s.length s (Nat.le_refl _) hin)

/-- The replacement is idempotent on a text exactly when the text has no anchored
occurrence of the qualifier followed by itself. -/
theorem replaceAll_idem_iff (w : List Char) (hw : ∀ c ∈ w, isBoundary c = false)
    (s : List Char) :
    replaceAll (w ++ ['.']) (replaceAll (w ++ ['.']) s) = replaceAll (w ++ ['.']) s
      ↔ ¬ anchoredOccurrence classRunes ((w ++ ['.']) ++ (w ++ ['.'])) s := by
  constructor
  · intro hidem hanch
    exact replaceAll_ne_of_anchored (w ++ ['.']) (by simp) _
      (replaceAll_keeps_anchor w hw s hanch) hidem
  · exact replaceAll_idem w hw s

/-! ## Lemmas on the generator -/

theorem provenance_opts (g : generator) : g.provenance.opts = g.opts := rfl

theorem importLines_opts (tc : Toolchain) (pkgName : String) :
    ∀ (l : List Import) (g : generator), (importLines tc pkgName l g).opts = g.opts := by
  intro l
  induction l with
  | nil => intro g; rfl
  | cons i rest ih =>
    intro g
    unfold importLines
    split
    · exact ih g
    · rw [ih]; rfl

theorem packageAndImports_opts (tc : Toolchain) (pkgName : String) (g : generator) :
    (g.packageAndImports tc pkgName).opts = g.opts := by
  unfold generator.packageAndImports
  show (importLines tc pkgName g.opts.Imports _).opts = g.opts
  rw [importLines_opts]
  rfl

theorem importLines_buf (tc : Toolchain) (pkgName : String) :
    ∀ (l : List Import) (g : generator) (pre : String),
      (importLines tc pkgName l { g with buf := pre ++ g.buf }).buf
        = pre ++ (importLines tc pkgName l g).buf := by
  intro l
  induction l with
  | nil => intro g pre; rfl
  | cons i rest ih =>
    intro g pre
    unfold importLines
    split
    · exact ih g pre
    · have := ih (g.p (i.Path ++ " " ++ tc.quote i.Package)) pre
      simpa [generator.p, String.append_assoc] using this

/-- The header written after a buffer `g.buf` is that buffer followed by the header
written from an empty buffer. -/
theorem header_buf (tc : Toolchain) (pkgName : String) (g : generator) :
    (g.provenance.packageAndImports tc pkgName).buf
      = g.buf ++ ((generator.mk "" g.opts).provenance.packageAndImports tc pkgName).buf := by
  have h := importLines_buf tc pkgName g.opts.Imports
    ((((generator.mk "" g.opts).provenance.p ("package " ++ pkgName)).p "").p "import (") g.buf
  simp only [generator.packageAndImports, generator.provenance, generator.p,
    String.append_assoc, String.empty_append] at h ⊢
  rw [h, String.append_assoc]

theorem nameListed_iff (name : String) :
    ∀ allow : List String, nameListed allow name = true ↔ name ∈ allow := by
  intro allow
  induction allow with
  | nil => simp [nameListed]
  | cons a rest ih =>
    unfold nameListed
    by_cases h : a = name
    · simp [h]
    · have h' : ¬ name = a := fun e => h e.symm
      simp [h, h', ih]

theorem shouldGenerateInterface_iff (allow : List String) (name : String) :
    shouldGenerateInterface allow name = true ↔ selected allow name := by
  unfold shouldGenerateInterface selected
  cases allow with
  | nil => simp
  | cons a rest => simp [nameListed_iff]

/-- When a selected interface fails to execute and the selected ones before it do not,
the loop ends with that error. -/
theorem renderInterfaces_error (tc : Toolchain) (t : tc.Tmpl) (should : String → Bool)
    (i : Interface) (post : List Interface) (err : String)
    (hsel : should i.Name = true) (herr : (tc.exec t i).2 = some err) :
    ∀ (pre : List Interface) (buf : String),
      (∀ intf ∈ pre, should intf.Name = true → (tc.exec t intf).2 = none) →
      (renderInterfaces tc t should (pre ++ i :: post) buf).1 = Ending.error err := by
  intro pre
  induction pre with
  | nil =>
    intro buf _
    rcases hx : tc.exec t i with ⟨out, e⟩
    rw [hx] at herr
    simp only at herr
    subst herr
    simp [renderInterfaces, hsel, hx]
  | cons j rest ih =>
    intro buf h
    have hrest : ∀ intf ∈ rest, should intf.Name = true → (tc.exec t intf).2 = none :=
      fun intf hi => h intf (List.mem_cons_of_mem j hi)
    rw [List.cons_append]
    unfold renderInterfaces
    by_cases hs : should j.Name = true
    · have he := h j (List.mem_cons_self j rest) hs
      rcases hx : tc.exec t j with ⟨out, e⟩
      rw [hx] at he
      simp only at he
      subst he
      simp only [hs, Bool.not_true, Bool.false_eq_true, if_false]
      exact ih _ hrest
    · simp only [Bool.not_eq_true] at hs
      simp only [hs, Bool.not_false, if_true]
      exact ih _ hrest

/-- The run of `generator.Generate` up to the loop, when nothing fails before it. -/
theorem generator_Generate_parsed (tc : Toolchain) (g : generator) (pkg : Package)
    (funcMap : FuncMap) (rd : Reader) (t : tc.Tmpl)
    (hpkg : g.opts.Package = some pkg)
    (hre : tc.regexpCompiles (trimPackageNamePattern (effectivePackageName tc g.opts pkg)) = true)
    (hfm : g.opts.Functions = some funcMap)
    (htm : g.opts.Template = some rd) (hrd : rd.err = none)
    (hparse : tc.parse (registerBuiltins funcMap) rd.content = Except.ok t) :
    g.Generate tc =
      ((renderInterfaces tc t (shouldGenerateInterface g.opts.Interfaces) pkg.Interfaces
          (g.buf ++ headerBlock tc g.opts pkg)).1,
       { buf := (renderInterfaces tc t (shouldGenerateInterface g.opts.Interfaces)
            pkg.Interfaces (g.buf ++ headerBlock tc g.opts pkg)).2,
         opts := { g.opts with Functions := some (registerBuiltins funcMap) } }) := by
  unfold generator.Generate
  simp only [provenance_opts, packageAndImports_opts, hpkg, hre, hfm, htm, hrd, hparse,
    Bool.not_true, Bool.false_eq_true, if_false]
  rw [header_buf]
  rfl

/-- The run of `generator.Generate` when the template does not parse. -/
theorem generator_Generate_parse_error (tc : Toolchain) (g : generator) (pkg : Package)
    (funcMap : FuncMap) (rd : Reader) (e : String)
    (hpkg : g.opts.Package = some pkg)
    (hre : tc.regexpCompiles (trimPackageNamePattern (effectivePackageName tc g.opts pkg)) = true)
    (hfm : g.opts.Functions = some funcMap)
    (htm : g.opts.Template = some rd) (hrd : rd.err = none)
    (hparse : tc.parse (registerBuiltins funcMap) rd.content = Except.error e) :
    g.Generate tc =
      (Ending.panic e,
       { buf := g.buf ++ headerBlock tc g.opts pkg,
         opts := { g.opts with Functions := some (registerBuiltins funcMap) } }) := by
  unfold generator.Generate
  simp only [provenance_opts, packageAndImports_opts, hpkg, hre, hfm, htm, hrd, hparse,
    Bool.not_true, Bool.false_eq_true, if_false]
  rw [header_buf]
  rfl

theorem registerBuiltins_apply (funcMap : FuncMap) (name : String) :
    registerBuiltins funcMap name
      = if name ∈ builtinNames then some (TemplateFunc.builtin name) else funcMap name := by
  simp only [registerBuiltins, builtinNames, List.foldl, funcMapSet, List.mem_cons,
    List.mem_singleton, List.not_mem_nil, or_false]
  split_ifs <;> simp_all

theorem initialGenerator_functions (opts : GenerateOptions) :
    (initialGenerator opts).opts.Functions = some (opts.Functions.getD emptyFuncMap) := by
  unfold initialGenerator
  cases h : opts.Functions <;> simp [h]

theorem initialGenerator_fields (opts : GenerateOptions) :
    (initialGenerator opts).buf = "" ∧
      (initialGenerator opts).opts.Source = opts.Source ∧
      (initialGenerator opts).opts.Package = opts.Package ∧
      (initialGenerator opts).opts.Interfaces = opts.Interfaces ∧
      (initialGenerator opts).opts.Template = opts.Template ∧
      (initialGenerator opts).opts.OverridePackage = opts.OverridePackage ∧
      (initialGenerator opts).opts.Imports = opts.Imports ∧
      (initialGenerator opts).opts.Meta = opts.Meta := by
  unfold initialGenerator
  cases opts.Functions <;> simp

theorem effectivePackageName_initial (tc : Toolchain) (opts : GenerateOptions) (pkg : Package) :
    effectivePackageName tc (initialGenerator opts).opts pkg = effectivePackageName tc opts pkg := by
  unfold effectivePackageName
  rw [(initialGenerator_fields opts).2.2.2.2.2.1]

theorem importLines_buf_congr (tc : Toolchain) (pkgName : String) :
    ∀ (l : List Import) (g g' : generator), g.buf = g'.buf →
      (importLines tc pkgName l g).buf = (importLines tc pkgName l g').buf := by
  intro l
  induction l with
  | nil => intro g g' h; exact h
  | cons i rest ih =>
    intro g g' h
    unfold importLines
    split
    · exact ih g g' h
    · exact ih _ _ (by simp [generator.p, h])

/-- The header depends on the options through the source label, the override and the
imports only. -/
theorem headerBlock_congr (tc : Toolchain) (opts opts' : GenerateOptions) (pkg : Package)
    (hs : opts.Source = opts'.Source) (ho : opts.OverridePackage = opts'.OverridePackage)
    (hi : opts.Imports = opts'.Imports) :
    headerBlock tc opts pkg = headerBlock tc opts' pkg := by
  have hn : effectivePackageName tc opts pkg = effectivePackageName tc opts' pkg := by
    unfold effectivePackageName
    rw [ho]
  unfold headerBlock
  rw [hn]
  simp only [generator.packageAndImports, generator.provenance, generator.p]
  rw [hi, hs]
  congr 2
  exact importLines_buf_congr tc _ _ _ _ rfl

theorem headerBlock_initial (tc : Toolchain) (opts : GenerateOptions) (pkg : Package) :
    headerBlock tc (initialGenerator opts).opts pkg = headerBlock tc opts pkg :=
  headerBlock_congr tc _ _ pkg (initialGenerator_fields opts).2.1
    (initialGenerator_fields opts).2.2.2.2.2.1 (initialGenerator_fields opts).2.2.2.2.2.2.1

/-- Whatever way `generator.Generate` ends, the options of the generator afterwards are
the ones before, except that the function map may have received the built-ins. -/
theorem generator_Generate_opts (tc : Toolchain) (g : generator) :
    (g.Generate tc).2.opts = g.opts ∨
      ∃ funcMap, g.opts.Functions = some funcMap ∧
        (g.Generate tc).2.opts = { g.opts with Functions := some (registerBuiltins funcMap) } := by
  unfold generator.Generate
  simp only [provenance_opts, packageAndImports_opts]
  cases hpkg : g.opts.Package with
  | none => left; rfl
  | some pkg =>
    simp only
    split
    · left; simp [provenance_opts, packageAndImports_opts]
    · cases hfm : g.opts.Functions with
      | none => left; simp [provenance_opts, packageAndImports_opts]
      | some funcMap =>
        right
        refine ⟨funcMap, rfl, ?_⟩
        simp only
        cases g.opts.Template with
        | none => simp [provenance_opts, packageAndImports_opts]
        | some rd =>
          simp only
          cases rd.err with
          | some err => simp [provenance_opts, packageAndImports_opts]
          | none =>
            simp only
            cases tc.parse (registerBuiltins funcMap) rd.content with
            | error e => simp [provenance_opts, packageAndImports_opts]
            | ok t => simp [provenance_opts, packageAndImports_opts]

/-- Once the package is there, the pattern compiles and the map is not `nil`, the
built-ins are stored, however the call ends afterwards. -/
theorem generator_Generate_registers (tc : Toolchain) (g : generator) (pkg : Package)
    (funcMap : FuncMap)
    (hpkg : g.opts.Package = some pkg)
    (hre : tc.regexpCompiles (trimPackageNamePattern (effectivePackageName tc g.opts pkg)) = true)
    (hfm : g.opts.Functions = some funcMap) :
    (g.Generate tc).2.opts = { g.opts with Functions := some (registerBuiltins funcMap) } := by
  unfold generator.Generate
  simp only [provenance_opts, packageAndImports_opts, hpkg, hre, hfm,
    Bool.not_true, Bool.false_eq_true, if_false]
  cases g.opts.Template with
  | none => simp [provenance_opts, packageAndImports_opts]
  | some rd =>
    simp only
    cases rd.err with
    | some err => simp [provenance_opts, packageAndImports_opts]
    | none =>
      simp only
      cases tc.parse (registerBuiltins funcMap) rd.content with
      | error e => simp [provenance_opts, packageAndImports_opts]
      | ok t => simp [provenance_opts, packageAndImports_opts]

/-- The result of `Generate` when the template compiles and a selected interface fails
to execute after the selected ones before it succeeded. -/
theorem Generate_of_execution_error (tc : Toolchain) (opts : GenerateOptions) (pkg : Package)
    (rd : Reader) (t : tc.Tmpl) (pre : List Interface) (i : Interface) (post : List Interface)
    (err : String)
    (hpkg : opts.Package = some pkg)
    (htm : opts.Template = some rd) (hrd : rd.err = none)
    (hre : tc.regexpCompiles (trimPackageNamePattern (effectivePackageName tc opts pkg)) = true)
    (hparse : tc.parse (registerBuiltins (opts.Functions.getD emptyFuncMap)) rd.content
      = Except.ok t)
    (hl : pkg.Interfaces = pre ++ i :: post)
    (hpre : ∀ intf ∈ pre, selected opts.Interfaces intf.Name → (tc.exec t intf).2 = none)
    (hsel : selected opts.Interfaces i.Name)
    (herr : (tc.exec t i).2 = some err) :
    (Generate tc opts).1 = Outcome.returned none (some err) := by
  have hf := initialGenerator_fields opts
  have hrun := generator_Generate_parsed tc (initialGenerator opts) pkg
    (opts.Functions.getD emptyFuncMap) rd t (hf.2.2.1.trans hpkg)
    (by rw [effectivePackageName_initial]; exact hre) (initialGenerator_functions opts)
    (hf.2.2.2.2.1.trans htm) hrd hparse
  have hloop := renderInterfaces_error tc t (shouldGenerateInterface opts.Interfaces) i post err
    ((shouldGenerateInterface_iff _ _).mpr hsel) herr pre
    ((initialGenerator opts).buf ++ headerBlock tc (initialGenerator opts).opts pkg)
    (fun intf hi hs => hpre intf hi ((shouldGenerateInterface_iff _ _).mp hs))
  rw [← hl, ← hf.2.2.2.1] at hloop
  unfold Generate
  simp only [hpkg, htm, hrun, hloop]

/-- The import loop appends one line per import whose path is not the package name. -/
theorem importLines_eq (tc : Toolchain) (pkgName : String) :
    ∀ (l : List Import) (g : generator),
      (importLines tc pkgName l g).buf
        = g.buf ++ concatAll
            ((l.filter (fun imp => decide (imp.Path ≠ pkgName))).map
              (fun imp => imp.Path ++ " " ++ tc.quote imp.Package ++ "\n")) := by
  intro l
  induction l with
  | nil => intro g; simp [importLines, concatAll]
  | cons i rest ih =>
    intro g
    unfold importLines
    by_cases h : pkgName = i.Path
    · have h' : i.Path = pkgName := h.symm
      rw [if_pos h, ih]
      simp [List.filter_cons, h']
    · have h' : ¬ i.Path = pkgName := fun e => h e.symm
      rw [if_neg h, ih]
      simp [List.filter_cons, h', concatAll, generator.p, String.append_assoc]

/-- The loop over the interfaces only appends to the buffer. -/
theorem renderInterfaces_appends (tc : Toolchain) (t : tc.Tmpl) (should : String → Bool) :
    ∀ (l : List Interface) (buf : String),
      ∃ rest, (renderInterfaces tc t should l buf).2 = buf ++ rest := by
  intro l
  induction l with
  | nil => intro buf; exact ⟨"", by simp [renderInterfaces]⟩
  | cons i rest ih =>
    intro buf
    unfold renderInterfaces
    by_cases hs : should i.Name = true
    · simp only [hs, Bool.not_true, Bool.false_eq_true, if_false]
      rcases hx : tc.exec t i with ⟨out, err⟩
      cases err with
      | some e => exact ⟨out, rfl⟩
      | none =>
        obtain ⟨r, hr⟩ := ih (buf ++ out ++ "\n")
        exact ⟨out ++ "\n" ++ r, by simpa only [String.append_assoc] using hr⟩
    · simp only [Bool.not_eq_true] at hs
      simp only [hs, Bool.not_false, if_true]
      exact ih buf

/-- With a package, whatever way `generator.Generate` ends, the buffer afterwards starts
with the buffer before followed by the header block. -/
theorem generator_Generate_header (tc : Toolchain) (g : generator) (pkg : Package)
    (hpkg : g.opts.Package = some pkg) :
    ∃ rest, (g.Generate tc).2.buf = g.buf ++ headerBlock tc g.opts pkg ++ rest := by
  have hb := header_buf tc (effectivePackageName tc g.opts pkg) g
  unfold generator.Generate
  simp only [provenance_opts, packageAndImports_opts, hpkg]
  split
  · exact ⟨"", by rw [hb]; simp [headerBlock]⟩
  · cases g.opts.Functions with
    | none => exact ⟨"", by rw [hb]; simp [headerBlock]⟩
    | some funcMap =>
      simp only
      cases g.opts.Template with
      | none => exact ⟨"", by rw [hb]; simp [headerBlock]⟩
      | some rd =>
        simp only
        cases rd.err with
        | some err => exact ⟨"", by rw [hb]; simp [headerBlock]⟩
        | none =>
          simp only
          cases tc.parse (registerBuiltins funcMap) rd.content with
          | error e => exact ⟨"", by rw [hb]; simp [headerBlock]⟩
          | ok t =>
            simp only
            obtain ⟨r, hr⟩ := renderInterfaces_appends tc t
              (shouldGenerateInterface g.opts.Interfaces) pkg.Interfaces
              (g.provenance.packageAndImports tc (effectivePackageName tc g.opts pkg)).buf
            exact ⟨r, by rw [hr, hb]; rfl⟩

/-! ## Lemmas on the template functions -/

/-- A loop that appends one element per item builds the mapped list. -/
theorem foldl_append_singleton {α β : Type} (f : α → β) :
    ∀ (l : List α) (acc : List β),
      l.foldl (fun ret x => ret ++ [f x]) acc = acc ++ l.map f := by
  intro l
  induction l with
  | nil => intro acc; simp
  | cons a rest ih => intro acc; simp [ih]

theorem intercalate_go_eq (sep : String) :
    ∀ (l : List String) (acc : String),
      String.intercalate.go acc sep l = acc ++ concatAll (l.map (fun a => sep ++ a)) := by
  intro l
  induction l with
  | nil => intro acc; simp [String.intercalate.go, concatAll]
  | cons a rest ih =>
    intro acc
    simp [String.intercalate.go, concatAll, ih, String.append_assoc]

theorem stringsJoin_cons (sep : String) :
    ∀ (l : List String) (a : String),
      stringsJoin (a :: l) sep = a ++ concatAll (l.map (fun b => sep ++ b)) := by
  intro l
  induction l with
  | nil => intro a; simp [stringsJoin, concatAll]
  | cons b rest ih =>
    intro a
    simp [stringsJoin, concatAll, ih, String.append_assoc]

/-- The model of Go's `strings.Join` is the separated join `String.intercalate`. -/
theorem stringsJoin_eq_intercalate (sep : String) (l : List String) :
    stringsJoin l sep = sep.intercalate l := by
  cases l with
  | nil => rfl
  | cons a rest =>
    rw [stringsJoin_cons]
    show _ = String.intercalate.go a sep rest
    rw [intercalate_go_eq]

/-- The first element satisfying a test is what `find?` returns. -/
theorem find?_first {α : Type} (p : α → Bool) (x : α) (post : List α) (hx : p x = true) :
    ∀ pre : List α, (∀ a ∈ pre, p a = false) → (pre ++ x :: post).find? p = some x := by
  intro pre
  induction pre with
  | nil => intro _; simp [hx]
  | cons a rest ih =>
    intro h
    have ha : p a = false := h a (List.mem_cons_self a rest)
    rw [List.cons_append, List.find?_cons, ha]
    exact ih (fun b hb => h b (List.mem_cons_of_mem a hb))

/-! ## Claims -/

/-- C2 (as stated, refuted): on the empty string `sanitize` returns the empty string,
which is not a non-empty identifier. -/
theorem sanitize_empty_not_identifier :
    sanitize asciiTables "" = "" ∧ isIdentifier asciiTables (sanitize asciiTables "") = false := by
  decide

/-- C2 (amended): for every non-empty input string, `sanitize` returns a non-empty valid
identifier: the first rune is a letter or an underscore, every later rune is a letter, a
digit or an underscore. -/
theorem sanitize_isIdentifier (u : UnicodeTables) (s : String) (hs : s ≠ "") :
    isIdentifier u (sanitize u s) = true := by
  obtain ⟨data⟩ := s
  cases data with
  | nil => exact absurd rfl hs
  | cons c rest =>
    unfold sanitize
    simp only [foldl_sanitizeStep_start]
    split
    · simp [isIdentifier, unicodeIsLetter]
    · simp only [isIdentifier, Bool.and_eq_true, List.all_eq_true, List.mem_map]
      refine ⟨firstRune_ok u c, ?_⟩
      rintro x ⟨r, _, rfl⟩
      exact laterRune_ok u r

/-- C2 (amended), evaluated at `"123"`. -/
theorem sanitize_isIdentifier_witness :
    "123" ≠ "" ∧ isIdentifier asciiTables (sanitize asciiTables "123") = true :=
  ⟨by decide, sanitize_isIdentifier asciiTables "123" (by decide)⟩

/-- C3 (as stated, refuted): with target package `pkg`, rendering `pkg.pkg.T` gives
`pkg.T` and rendering that again gives `T`. -/
theorem parameterName_not_idempotent :
    isPlainName asciiTables "pkg" ∧
      parameterName "pkg" ⟨"v", "pkg.pkg.T"⟩ = "pkg.T" ∧
      parameterName "pkg" ⟨"v", parameterName "pkg" ⟨"v", "pkg.pkg.T"⟩⟩ = "T" ∧
      parameterName "pkg" ⟨"v", parameterName "pkg" ⟨"v", "pkg.pkg.T"⟩⟩
        ≠ parameterName "pkg" ⟨"v", "pkg.pkg.T"⟩ := by
  decide

/-- C3 (amended): for every target package name made of letters, digits and underscores
and every type string, rendering the rendered string gives the same string as rendering
once exactly when the type string has no boundary-anchored occurrence of the qualifier
`pkg.` (at the start, or right after `]`, `*`, a dot or a space) that is immediately
followed by `pkg.` again. -/
theorem parameterName_idempotent (u : UnicodeTables) (pkgName : String) (p : Parameter)
    (hp : isPlainName u pkgName) :
    parameterName pkgName { p with TypeString := parameterName pkgName p }
        = parameterName pkgName p
      ↔ ¬ anchoredOccurrence classRunes (qualifier pkgName ++ qualifier pkgName)
          p.TypeString.data := by
  have hw : ∀ c ∈ pkgName.data, isBoundary c = false :=
    fun c hc => isBoundary_of_plain u c (hp c hc)
  have hiff := replaceAll_idem_iff pkgName.data hw p.TypeString.data
  unfold parameterName ReplaceAllString qualifier
  exact ⟨fun h => hiff.mp (congrArg String.data h), fun h => congrArg String.mk (hiff.mpr h)⟩

/-- C3 (amended), evaluated for package `pkg`: `Xpkg.pkg.T` holds the qualifier twice in
a row, but not at a boundary, and renders idempotently; `*pkg.pkg.T` holds it twice in a
row right after `*`, and does not. -/
theorem parameterName_idempotent_witness :
    isPlainName asciiTables "pkg" ∧
      (¬ anchoredOccurrence classRunes (qualifier "pkg" ++ qualifier "pkg") "Xpkg.pkg.T".data ∧
        parameterName "pkg" ⟨"m", parameterName "pkg" ⟨"m", "Xpkg.pkg.T"⟩⟩
          = parameterName "pkg" ⟨"m", "Xpkg.pkg.T"⟩) ∧
      (anchoredOccurrence classRunes (qualifier "pkg" ++ qualifier "pkg") "*pkg.pkg.T".data ∧
        parameterName "pkg" ⟨"m", parameterName "pkg" ⟨"m", "*pkg.pkg.T"⟩⟩
          ≠ parameterName "pkg" ⟨"m", "*pkg.pkg.T"⟩) :=
  ⟨by decide,
    ⟨by decide,
      (parameterName_idempotent asciiTables "pkg" ⟨"m", "Xpkg.pkg.T"⟩ (by decide)).mpr
        (by decide)⟩,
    ⟨by decide,
      fun h => (parameterName_idempotent asciiTables "pkg" ⟨"m", "*pkg.pkg.T"⟩ (by decide)).mp h
        (by decide)⟩⟩

/-- C4 (as stated, refuted): in `...pkg.T` the qualifier `pkg.` is neither at the start
nor right after `*`, `]` or a space, yet the renderer strips it: the dot is in the class
of the pattern too. -/
theorem parameterName_strips_after_dot :
    isPlainName asciiTables "pkg" ∧
      ¬ anchoredOccurrence specBoundaryRunes (qualifier "pkg") "...pkg.T".data ∧
      parameterName "pkg" ⟨"xs", "...pkg.T"⟩ = "...T" ∧
      parameterName "pkg" ⟨"xs", "...pkg.T"⟩ ≠ "...pkg.T" := by
  decide

/-- C4 (amended): for every target package name made of letters, digits and underscores
and every type string in which no occurrence of `pkg.` is at the start of the string or
immediately preceded by `*`, `]`, a space or a dot, the renderer returns the type string
unchanged. -/
theorem parameterName_unchanged (u : UnicodeTables) (pkgName : String) (p : Parameter)
    (_hp : isPlainName u pkgName)
    (ha : ¬ anchoredOccurrence classRunes (qualifier pkgName) p.TypeString.data) :
    parameterName pkgName p = p.TypeString := by
  unfold parameterName ReplaceAllString
  exact congrArg String.mk (replaceAll_of_not_anchored _ _ ha)

/-- C4 (amended), evaluated for package `pkg` at `map[string]otherpkg.T`, where `pkg.`
is the tail of a longer identifier. -/
theorem parameterName_unchanged_witness :
    isPlainName asciiTables "pkg" ∧
      ¬ anchoredOccurrence classRunes (qualifier "pkg") "map[string]otherpkg.T".data ∧
      parameterName "pkg" ⟨"m", "map[string]otherpkg.T"⟩ = "map[string]otherpkg.T" :=
  ⟨by decide, by decide,
    parameterName_unchanged asciiTables "pkg" ⟨"m", "map[string]otherpkg.T"⟩
      (by decide) (by decide)⟩

/-- C5: for every target package name `pkg` made of letters, digits and underscores and
every string `t` that does not contain `pkg.`, the renderer gives `t` for `pkg.t`, `*t`
for `*pkg.t` and `[]t` for `[]pkg.t`. -/
theorem parameterName_strips_qualifier (u : UnicodeTables) (pkgName t name : String)
    (hp : isPlainName u pkgName) (ht : ¬ qualifier pkgName <:+: t.data) :
    parameterName pkgName ⟨name, pkgName ++ "." ++ t⟩ = t ∧
      parameterName pkgName ⟨name, "*" ++ pkgName ++ "." ++ t⟩ = "*" ++ t ∧
      parameterName pkgName ⟨name, "[]" ++ pkgName ++ "." ++ t⟩ = "[]" ++ t := by
  have hw : ∀ c ∈ pkgName.data, isBoundary c = false :=
    fun c hc => isBoundary_of_plain u c (hp c hc)
  have hscan : replaceScan (qualifier pkgName) 0 t.data = t.data :=
    replaceScan_of_no_match _ _ (fun c _ hin =>
      ht ((List.suffix_cons c (qualifier pkgName)).isInfix.trans hin))
  have hpre : (qualifier pkgName).isPrefixOf (qualifier pkgName ++ t.data) = true :=
    List.isPrefixOf_iff_prefix.mpr (List.prefix_append _ _)
  have hd1 : (pkgName ++ "." ++ t).data = qualifier pkgName ++ t.data := by
    simp [qualifier]
  have hd2 : ("*" ++ pkgName ++ "." ++ t).data = '*' :: (qualifier pkgName ++ t.data) := by
    simp [qualifier]
  have hd3 : ("[]" ++ pkgName ++ "." ++ t).data
      = '[' :: ']' :: (qualifier pkgName ++ t.data) := by
    simp [qualifier]
  refine ⟨?_, ?_, ?_⟩
  · -- the second alternative matches at the start
    have hcls : matchesClassAtStart (qualifier pkgName) (qualifier pkgName ++ t.data) = false := by
      rw [Bool.eq_false_iff]
      intro hm
      cases hdat : pkgName.data with
      | nil =>
        simp only [qualifier, hdat, List.nil_append, List.cons_append, matchesClassAtStart,
          Bool.and_eq_true] at hm
        apply ht
        simp only [qualifier, hdat, List.nil_append]
        exact (List.isPrefixOf_iff_prefix.mp hm.2).isInfix
      | cons a w =>
        have ha : isBoundary a = false := hw a (by rw [hdat]; exact List.mem_cons_self a w)
        simp [qualifier, hdat, matchesClassAtStart, ha] at hm
    unfold parameterName ReplaceAllString
    show String.mk (replaceAll _ (pkgName ++ "." ++ t).data) = String.mk t.data
    rw [hd1]
    unfold replaceAll
    simp only [hcls, hpre, Bool.not_false, Bool.and_self, if_true]
    rw [replaceScan_skip, List.drop_left, hscan]
  · -- the first alternative matches at the start, group 1 is the star
    unfold parameterName ReplaceAllString
    show String.mk (replaceAll _ ("*" ++ pkgName ++ "." ++ t).data) = String.mk ("*" ++ t).data
    rw [hd2]
    have hcls : matchesClassAtStart (qualifier pkgName) ('*' :: (qualifier pkgName ++ t.data))
        = true := by
      simp only [matchesClassAtStart, hpre, Bool.and_true]
      decide
    unfold replaceAll
    simp only [hcls, Bool.not_true, Bool.false_and]
    rw [replaceScan_match _ _ _ (by decide), hscan]
    simp
  · -- no match at the opening bracket, then the first alternative at the closing bracket
    unfold parameterName ReplaceAllString
    show String.mk (replaceAll _ ("[]" ++ pkgName ++ "." ++ t).data) = String.mk ("[]" ++ t).data
    rw [hd3]
    have hnp : (qualifier pkgName).isPrefixOf ('[' :: ']' :: (qualifier pkgName ++ t.data))
        = false := by
      rw [Bool.eq_false_iff]
      intro hm
      have hm := List.isPrefixOf_iff_prefix.mp hm
      cases hdat : pkgName.data with
      | nil =>
        simp only [qualifier, hdat, List.nil_append, List.cons_prefix_cons] at hm
        exact absurd hm.1 (by decide)
      | cons a w =>
        have ha : isBoundary a = false := hw a (by rw [hdat]; exact List.mem_cons_self a w)
        simp only [qualifier, hdat, List.cons_append, List.cons_prefix_cons] at hm
        have hplain := hp a (by rw [hdat]; exact List.mem_cons_self a w)
        rw [hm.1] at hplain
        simp [unicodeIsLetter, unicodeIsDigit] at hplain
    unfold replaceAll
    simp only [hnp, Bool.and_false]
    rw [replaceScan_copy _ '[' _ (by simp [isBoundary]), replaceScan_match _ _ _ (by decide), hscan]
    simp

/-- C5, evaluated for package `pkg` and `t = Foo`. -/
theorem parameterName_strips_qualifier_witness :
    isPlainName asciiTables "pkg" ∧ ¬ qualifier "pkg" <:+: "Foo".data ∧
      parameterName "pkg" ⟨"v", "pkg" ++ "." ++ "Foo"⟩ = "Foo" ∧
      parameterName "pkg" ⟨"v", "*" ++ "pkg" ++ "." ++ "Foo"⟩ = "*" ++ "Foo" ∧
      parameterName "pkg" ⟨"v", "[]" ++ "pkg" ++ "." ++ "Foo"⟩ = "[]" ++ "Foo" :=
  ⟨by decide, by decide,
    parameterName_strips_qualifier asciiTables "pkg" "Foo" "v" (by decide) (by decide)⟩


/-- C6 (as stated, refuted): the caller binds `meta` to a function of their own, yet the
template is compiled with a map that binds `meta` to the built-in: with a parser that
reports what the map it is given binds to `meta`, `Generate` returns the header block
followed by the report `built-in meta`. -/
theorem builtin_replaces_supplied :
    callerOptions.Functions.bind (fun funcMap => funcMap "meta")
        = some (TemplateFunc.supplied 1) ∧
      (Generate (probeToolchain "meta") callerOptions).1
        = Outcome.returned
            (some (headerBlock (probeToolchain "meta") callerOptions examplePackage
              ++ "built-in meta" ++ "\n")) none ∧
      (Generate (probeToolchain "meta") callerOptions).1
        ≠ Outcome.returned
            (some (headerBlock (probeToolchain "meta") callerOptions examplePackage
              ++ "supplied by the caller" ++ "\n")) none := by
  decide

/-- C6 (amended): the built-ins override the caller's functions by name. Once
`generator.Generate` reaches the assignments (the package is there, the pattern
compiles), the template is compiled with the caller's map after the built-ins were
stored in it: the parser's answer on that map decides how the call goes on. That map binds
every built-in name to the built-in, whatever the caller bound to it, and binds every
other name as the caller's map does; it is the map the options hold afterwards. -/
theorem builtins_override_supplied (tc : Toolchain) (g : generator) (pkg : Package)
    (funcMap : FuncMap)
    (hpkg : g.opts.Package = some pkg)
    (hre : tc.regexpCompiles (trimPackageNamePattern (effectivePackageName tc g.opts pkg)) = true)
    (hfm : g.opts.Functions = some funcMap) :
    (∀ rd, g.opts.Template = some rd → rd.err = none →
        (∀ e, tc.parse (registerBuiltins funcMap) rd.content = Except.error e →
          (g.Generate tc).1 = Ending.panic e) ∧
        (∀ t, tc.parse (registerBuiltins funcMap) rd.content = Except.ok t →
          g.Generate tc =
            ((renderInterfaces tc t (shouldGenerateInterface g.opts.Interfaces) pkg.Interfaces
                (g.buf ++ headerBlock tc g.opts pkg)).1,
             { buf := (renderInterfaces tc t (shouldGenerateInterface g.opts.Interfaces)
                  pkg.Interfaces (g.buf ++ headerBlock tc g.opts pkg)).2,
               opts := { g.opts with Functions := some (registerBuiltins funcMap) } }))) ∧
      (g.Generate tc).2.opts.Functions = some (registerBuiltins funcMap) ∧
      (∀ name ∈ builtinNames, registerBuiltins funcMap name = some (TemplateFunc.builtin name)) ∧
      (∀ name, name ∉ builtinNames → registerBuiltins funcMap name = funcMap name) := by
  refine ⟨?_, ?_, ?_, ?_⟩
  · intro rd htm hrd
    refine ⟨?_, ?_⟩
    · intro e hparse
      rw [generator_Generate_parse_error tc g pkg funcMap rd e hpkg hre hfm htm hrd hparse]
    · intro t hparse
      exact generator_Generate_parsed tc g pkg funcMap rd t hpkg hre hfm htm hrd hparse
  · rw [generator_Generate_registers tc g pkg funcMap hpkg hre hfm]
  · intro name hn
    rw [registerBuiltins_apply, if_pos hn]
  · intro name hn
    rw [registerBuiltins_apply, if_neg hn]

/-- C6 (amended), evaluated on `callerOptions`: the map the template is compiled with
binds `meta` to the built-in and `mine` to the caller's function, and with a parser that
reports the binding of `mine` the generator writes the header block followed by the
report `supplied by the caller`. -/
theorem builtins_override_supplied_witness :
    registerBuiltins callerFuncMap "meta" = some (TemplateFunc.builtin "meta") ∧
      registerBuiltins callerFuncMap "mine" = some (TemplateFunc.supplied 2) ∧
      (generator.Generate (probeToolchain "mine") ⟨"", callerOptions⟩).2.buf
        = headerBlock (probeToolchain "mine") callerOptions examplePackage
            ++ "supplied by the caller" ++ "\n" :=
  have h := builtins_override_supplied (probeToolchain "mine") ⟨"", callerOptions⟩
    examplePackage callerFuncMap rfl rfl rfl
  ⟨h.2.2.1 "meta" (by decide), (h.2.2.2 "mine" (by decide)).trans (by decide),
    (congrArg (fun r => r.2.buf)
      ((h.1 ⟨"// ", none⟩ rfl rfl).2 "supplied by the caller" rfl)).trans (by decide)⟩

/-- C7 (as stated, refuted): with the template text `{{`, which does not compile,
`Generate` panics; it does not return an error value. -/
theorem Generate_panics_on_bad_template :
    toyToolchain.parse (registerBuiltins emptyFuncMap) "\x7b\x7b" = Except.error "unclosed action" ∧
      (Generate toyToolchain { exampleOptions with Template := some ⟨"\x7b\x7b", none⟩ }).1
        = Outcome.panicked "unclosed action" ∧
      (Generate toyToolchain { exampleOptions with Template := some ⟨"\x7b\x7b", none⟩ }).1
        ≠ Outcome.returned none (some "unclosed action") := by
  refine ⟨rfl, ?_, ?_⟩ <;> decide

/-- C7 (amended): for every options value with a non-nil Package whose qualifier pattern
compiles and a template text that is read but fails to compile, `Generate` ends in a
panic carrying the compile failure (`template.Must`), before any interface is rendered:
the buffer holds the header block only, and no bytes and no error value are returned. -/
theorem Generate_template_compile_failure (tc : Toolchain) (opts : GenerateOptions)
    (pkg : Package) (rd : Reader) (e : String)
    (hpkg : opts.Package = some pkg)
    (htm : opts.Template = some rd) (hrd : rd.err = none)
    (hre : tc.regexpCompiles (trimPackageNamePattern (effectivePackageName tc opts pkg)) = true)
    (hparse : tc.parse (registerBuiltins (opts.Functions.getD emptyFuncMap)) rd.content
      = Except.error e) :
    (Generate tc opts).1 = Outcome.panicked e ∧
      ((initialGenerator opts).Generate tc).1 = Ending.panic e ∧
      ((initialGenerator opts).Generate tc).2.buf = headerBlock tc opts pkg := by
  have hf := initialGenerator_fields opts
  have hrun := generator_Generate_parse_error tc (initialGenerator opts) pkg
    (opts.Functions.getD emptyFuncMap) rd e (hf.2.2.1.trans hpkg)
    (by rw [effectivePackageName_initial]; exact hre) (initialGenerator_functions opts)
    (hf.2.2.2.2.1.trans htm) hrd hparse
  refine ⟨?_, ?_, ?_⟩
  · unfold Generate
    simp only [hpkg, htm, hrun]
  · rw [hrun]
  · rw [hrun]
    simp only [hf.1, String.empty_append]
    exact headerBlock_initial tc opts pkg

/-- C7 (amended), evaluated on the template text `{{`. -/
theorem Generate_template_compile_failure_witness :
    toyToolchain.parse (registerBuiltins emptyFuncMap) "\x7b\x7b" = Except.error "unclosed action" ∧
      (Generate toyToolchain { exampleOptions with Template := some ⟨"\x7b\x7b", none⟩ }).1
        = Outcome.panicked "unclosed action" :=
  ⟨rfl,
    (Generate_template_compile_failure toyToolchain
      { exampleOptions with Template := some ⟨"\x7b\x7b", none⟩ } examplePackage ⟨"\x7b\x7b", none⟩
      "unclosed action" rfl rfl rfl rfl rfl).1⟩

/-- C8 (as stated, refuted): the caller's function map has no entry `meta` before the
call; the call returns normally, and the map holds the built-in under `meta` after it. -/
theorem Generate_writes_caller_map :
    exampleOptions.Functions.bind (fun funcMap => funcMap "meta") = none ∧
      (∃ bytes, (Generate toyToolchain exampleOptions).1 = Outcome.returned (some bytes) none) ∧
      (Generate toyToolchain exampleOptions).2.Functions.bind (fun funcMap => funcMap "meta")
        = some (TemplateFunc.builtin "meta") :=
  ⟨by decide, ⟨_, rfl⟩, by decide⟩

/-- C8 (amended): `Generate` leaves the Package, the import list and the metadata map as
they were. A `nil` function map stays `nil` for the caller. A function map the caller
supplied keeps its entries under every name that is not the name of a built-in, and is
either untouched or holds the built-ins under their names; it holds them whenever
`Generate` gets past its validation and the pattern compiles. -/
theorem Generate_inputs_after (tc : Toolchain) (opts : GenerateOptions) :
    (Generate tc opts).2.Package = opts.Package ∧
      (Generate tc opts).2.Imports = opts.Imports ∧
      (Generate tc opts).2.Meta = opts.Meta ∧
      (opts.Functions = none → (Generate tc opts).2.Functions = none) ∧
      (∀ funcMap, opts.Functions = some funcMap →
        ∃ after, (Generate tc opts).2.Functions = some after ∧
          (after = funcMap ∨ after = registerBuiltins funcMap) ∧
          (∀ name, name ∉ builtinNames → after name = funcMap name) ∧
          (∀ pkg rd, opts.Package = some pkg → opts.Template = some rd →
            tc.regexpCompiles (trimPackageNamePattern (effectivePackageName tc opts pkg)) = true →
            after = registerBuiltins funcMap)) := by
  have hf := initialGenerator_fields opts
  have hfn := initialGenerator_functions opts
  cases hpkg : opts.Package with
  | none =>
    have hG : Generate tc opts = (Outcome.returned none (some "Package is nil"), opts) := by
      unfold Generate; simp only [hpkg]
    rw [hG]
    refine ⟨hpkg, rfl, rfl, fun h => h, ?_⟩
    intro funcMap hfm
    refine ⟨funcMap, hfm, Or.inl rfl, fun _ _ => rfl, ?_⟩
    intro pkg rd h
    exact absurd h (by simp)
  | some pkg =>
    cases htm : opts.Template with
    | none =>
      have hG : Generate tc opts = (Outcome.returned none (some "Template is nil"), opts) := by
        unfold Generate; simp only [hpkg, htm]
      rw [hG]
      refine ⟨hpkg, rfl, rfl, fun h => h, ?_⟩
      intro funcMap hfm
      refine ⟨funcMap, hfm, Or.inl rfl, fun _ _ => rfl, ?_⟩
      intro pkg' rd _ h
      exact absurd h (by simp)
    | some rd =>
      have hG : (Generate tc opts).2 =
          match opts.Functions with
          | none => { ((initialGenerator opts).Generate tc).2.opts with Functions := none }
          | some _ => ((initialGenerator opts).Generate tc).2.opts := by
        unfold Generate
        simp only [hpkg, htm]
        cases ((initialGenerator opts).Generate tc).1 <;> rfl
      rw [hG]
      have hopts := generator_Generate_opts tc (initialGenerator opts)
      cases hfm : opts.Functions with
      | none =>
        simp only
        refine ⟨?_, ?_, ?_, by simp, fun funcMap h => absurd h (by simp)⟩
        · rcases hopts with h | ⟨fm, _, h⟩ <;> rw [h] <;> exact hf.2.2.1.trans hpkg
        · rcases hopts with h | ⟨fm, _, h⟩ <;> rw [h] <;> exact hf.2.2.2.2.2.2.1
        · rcases hopts with h | ⟨fm, _, h⟩ <;> rw [h] <;> exact hf.2.2.2.2.2.2.2
      | some funcMap =>
        simp only
        have hfn' : (initialGenerator opts).opts.Functions = some funcMap := by
          rw [hfn, hfm]; rfl
        refine ⟨?_, ?_, ?_, fun h => absurd h (by simp), ?_⟩
        · rcases hopts with h | ⟨fm, _, h⟩ <;> rw [h] <;> exact hf.2.2.1.trans hpkg
        · rcases hopts with h | ⟨fm, _, h⟩ <;> rw [h] <;> exact hf.2.2.2.2.2.2.1
        · rcases hopts with h | ⟨fm, _, h⟩ <;> rw [h] <;> exact hf.2.2.2.2.2.2.2
        · intro funcMap' hfm'
          have hsame : funcMap' = funcMap := (Option.some.inj hfm').symm
          subst hsame
          rcases hopts with h | ⟨fm, hfmeq, h⟩
          · refine ⟨funcMap', by rw [h]; exact hfn', Or.inl rfl, fun _ _ => rfl, ?_⟩
            intro pkg' rd' hp' _ hre
            have hreg := generator_Generate_registers tc (initialGenerator opts) pkg' funcMap'
              (hf.2.2.1.trans (hpkg.trans hp')) (by rw [effectivePackageName_initial]; exact hre) hfn'
            have := congrArg GenerateOptions.Functions (h.symm.trans hreg)
            rw [hfn'] at this
            exact Option.some.inj this
          · have hfm2 : fm = funcMap' := Option.some.inj (hfmeq.symm.trans hfn')
            subst hfm2
            refine ⟨registerBuiltins fm, by rw [h], Or.inr rfl, ?_, fun _ _ _ _ _ => rfl⟩
            intro name hn
            rw [registerBuiltins_apply, if_neg hn]

/-- C8 (amended), evaluated on `exampleOptions` with a caller map binding `mine`: after
the call `mine` is bound as before and `meta` is bound to the built-in. -/
theorem Generate_inputs_after_witness :
    (Generate toyToolchain
        { exampleOptions with
          Functions := some (funcMapSet emptyFuncMap "mine" (TemplateFunc.supplied 2)) }).2.Package
      = some examplePackage ∧
    ∃ after,
      (Generate toyToolchain
        { exampleOptions with
          Functions := some (funcMapSet emptyFuncMap "mine" (TemplateFunc.supplied 2)) }
        ).2.Functions = some after ∧
      after "mine" = some (TemplateFunc.supplied 2) ∧
      after "meta" = some (TemplateFunc.builtin "meta") :=
  have h := Generate_inputs_after toyToolchain
    { exampleOptions with
      Functions := some (funcMapSet emptyFuncMap "mine" (TemplateFunc.supplied 2)) }
  ⟨h.1,
    (h.2.2.2.2 _ rfl).elim fun after ha =>
      ⟨after, ha.1, (ha.2.2.1 "mine" (by decide)).trans (by decide),
        by rw [ha.2.2.2 examplePackage ⟨"// ", none⟩ rfl rfl rfl]; decide⟩⟩

/-- C9: `Generate` checks its required inputs first. With a `nil` Package it returns no
bytes and the error `Package is nil`; with a Package and a `nil` Template it returns no
bytes and the different error `Template is nil`. In both cases the generator never runs:
nothing is rendered and the options are as before. -/
theorem Generate_validates_inputs (tc : Toolchain) (opts : GenerateOptions)
    (h : opts.Package = none ∨ opts.Template = none) :
    Generate tc opts
        = (Outcome.returned none
            (some (if opts.Package.isNone then "Package is nil" else "Template is nil")), opts) ∧
      "Package is nil" ≠ "Template is nil" := by
  refine ⟨?_, by decide⟩
  unfold Generate
  cases hpkg : opts.Package with
  | none => simp
  | some pkg =>
    rcases h with h | h
    · exact absurd (hpkg.symm.trans h) (by simp)
    · simp [h]

/-- C9, evaluated with a Package and no Template. -/
theorem Generate_validates_inputs_witness :
    ({ exampleOptions with Template := none } : GenerateOptions).Template = none ∧
      (Generate toyToolchain { exampleOptions with Template := none }).1
        = Outcome.returned none (some "Template is nil") :=
  ⟨rfl, congrArg Prod.fst
    (Generate_validates_inputs toyToolchain { exampleOptions with Template := none }
      (Or.inr rfl)).1⟩

/-- C10: generation is all-or-nothing on a template execution failure. If executing the
template fails on a selected interface, after any number of selected interfaces that
rendered without error, `Generate` returns exactly that error and a `nil` byte slice; the
result is the same whatever import processing and formatting would do, so the Output
Normalizer is not run. -/
theorem Generate_execution_failure (tc : Toolchain) (opts : GenerateOptions) (pkg : Package)
    (rd : Reader) (t : tc.Tmpl) (pre : List Interface) (i : Interface) (post : List Interface)
    (err : String)
    (hpkg : opts.Package = some pkg)
    (htm : opts.Template = some rd) (hrd : rd.err = none)
    (hre : tc.regexpCompiles (trimPackageNamePattern (effectivePackageName tc opts pkg)) = true)
    (hparse : tc.parse (registerBuiltins (opts.Functions.getD emptyFuncMap)) rd.content
      = Except.ok t)
    (hl : pkg.Interfaces = pre ++ i :: post)
    (hpre : ∀ intf ∈ pre, selected opts.Interfaces intf.Name → (tc.exec t intf).2 = none)
    (hsel : selected opts.Interfaces i.Name)
    (herr : (tc.exec t i).2 = some err) :
    (Generate tc opts).1 = Outcome.returned none (some err) ∧
      ∀ (process format : String → Except String String),
        (Generate { tc with process := process, format := format } opts).1
          = Outcome.returned none (some err) :=
  ⟨Generate_of_execution_error tc opts pkg rd t pre i post err hpkg htm hrd hre hparse hl hpre
      hsel herr,
    fun process format =>
      Generate_of_execution_error { tc with process := process, format := format } opts pkg rd t
        pre i post err hpkg htm hrd hre hparse hl hpre hsel herr⟩

/-- C10, evaluated on a package whose second interface `Boom` fails to execute after the
first one rendered. -/
theorem Generate_execution_failure_witness :
    (toyToolchain.exec "// " ⟨"A", []⟩).2 = none ∧
      (toyToolchain.exec "// " ⟨"Boom", []⟩).2 = some "exec failed" ∧
      (Generate toyToolchain
          { exampleOptions with
            Package := some ⟨"svc", [⟨"A", []⟩, ⟨"Boom", []⟩, ⟨"C", []⟩]⟩ }).1
        = Outcome.returned none (some "exec failed") :=
  ⟨rfl, rfl,
    (Generate_execution_failure toyToolchain
      { exampleOptions with Package := some ⟨"svc", [⟨"A", []⟩, ⟨"Boom", []⟩, ⟨"C", []⟩]⟩ }
      ⟨"svc", [⟨"A", []⟩, ⟨"Boom", []⟩, ⟨"C", []⟩]⟩ ⟨"// ", none⟩ "// "
      [⟨"A", []⟩] ⟨"Boom", []⟩ [⟨"C", []⟩] "exec failed"
      rfl rfl rfl rfl rfl rfl (by decide) (by decide) rfl).1⟩

/-- C19: for every string, `sanitize` returns the rune-by-rune replacement of the input
(first rune kept when a letter or underscore, later runes kept when a letter, digit or
underscore, any other rune replaced by one underscore), except that the replacement `_`
becomes the fallback `x`; the result has as many runes as the input, and
`sanitize("a-b.c")` is `a_b_c`. -/
theorem sanitize_eq_replacement (u : UnicodeTables) (s : String) :
    sanitize u s = (if replaceRunes u s = "_" then "x" else replaceRunes u s) ∧
      (sanitize u s).length = s.length ∧
      sanitize asciiTables "a-b.c" = "a_b_c" := by
  refine ⟨sanitize_unfold u s, ?_, by decide⟩
  rw [sanitize_unfold]
  by_cases h : replaceRunes u s = "_"
  · rw [if_pos h, ← replaceRunes_length u s, h]
    rfl
  · rw [if_neg h, replaceRunes_length]

/-- C20: `sanitize` is idempotent: applying it to its own result gives that result. -/
theorem sanitize_idempotent (u : UnicodeTables) (s : String) :
    sanitize u (sanitize u s) = sanitize u s := by
  rw [sanitize_unfold u s]
  by_cases h : replaceRunes u s = "_"
  · rw [if_pos h, sanitize_unfold]
    have hx : replaceRunes u "x" = "x" := by
      show String.mk [firstRune u 'x'] = "x"
      simp [firstRune, unicodeIsLetter]
    rw [hx]
    decide
  · rw [if_neg h, sanitize_unfold, replaceRunes_idem, if_neg h]

/-- C12: the template function `meta` returns the metadata value of the key when the
key is present, otherwise the first supplied default when there is one, otherwise the
empty string; it is a total function. On empty metadata `meta("x")` is empty and
`meta("x","d")` is `d`; with `x` mapped to `v`, `meta("x")` is `v`. -/
theorem metaLookup_cases (M : String → Option String) (key : String)
    (defaultValue : List String) :
    (∀ v, M key = some v → metaLookup M key defaultValue = v) ∧
      (∀ d rest, M key = none → defaultValue = d :: rest → metaLookup M key defaultValue = d) ∧
      (M key = none → defaultValue = [] → metaLookup M key defaultValue = "") ∧
      metaLookup (fun _ => none) "x" [] = "" ∧
      metaLookup (fun _ => none) "x" ["d"] = "d" ∧
      metaLookup (fun k => if k = "x" then some "v" else none) "x" [] = "v" := by
  refine ⟨?_, ?_, ?_, rfl, rfl, rfl⟩
  · intro v h
    simp [metaLookup, h]
  · intro d rest h hd
    simp [metaLookup, h, hd]
  · intro h hd
    simp [metaLookup, h, hd]

/-- C12, evaluated on metadata with `x` mapped to `v`: the value wins over a supplied
default, and an absent key gives the first default. -/
theorem metaLookup_cases_witness :
    metaLookup (fun k => if k = "x" then some "v" else none) "x" ["d"] = "v" ∧
      metaLookup (fun k => if k = "x" then some "v" else none) "y" ["d", "e"] = "d" :=
  ⟨(metaLookup_cases (fun k => if k = "x" then some "v" else none) "x" ["d"]).1 "v" rfl,
    (metaLookup_cases (fun k => if k = "x" then some "v" else none) "y" ["d", "e"]).2.1
      "d" ["e"] rfl rfl⟩

/-- C13: `output_var_error` returns the name of the first output parameter, in
declaration order, whose rendered type is `error`, and the empty string when no output
has that rendered type, in particular when the method has no outputs. -/
theorem output_var_error_first (pkgName : String) (m : Method) :
    (∀ pre out post, m.Out = pre ++ out :: post →
        (∀ p ∈ pre, parameterName pkgName p ≠ "error") →
        parameterName pkgName out = "error" →
        output_var_error pkgName m = out.Name) ∧
      ((∀ p ∈ m.Out, parameterName pkgName p ≠ "error") → output_var_error pkgName m = "") ∧
      (m.Out = [] → output_var_error pkgName m = "") := by
  refine ⟨?_, ?_, ?_⟩
  · intro pre out post hl hpre hout
    unfold output_var_error outputVarType
    rw [hl, find?_first _ out post (by simp [hout]) pre (fun a ha => by simp [hpre a ha])]
  · intro h
    unfold output_var_error outputVarType
    have : m.Out.find? (fun out => parameterName pkgName out == "error") = none := by
      rw [List.find?_eq_none]
      intro x hx
      simp [h x hx]
    rw [this]
  · intro h
    unfold output_var_error outputVarType
    rw [h]
    rfl

/-- C13, evaluated on `exampleMethod`: of the two outputs of type `error`, the first one,
`err`, is named. -/
theorem output_var_error_first_witness :
    (∀ p ∈ [(⟨"v", "svc.Value"⟩ : Parameter)], parameterName "svc" p ≠ "error") ∧
      output_var_error "svc" exampleMethod = "err" :=
  ⟨by decide,
    (output_var_error_first "svc" exampleMethod).1 [⟨"v", "svc.Value"⟩] ⟨"err", "error"⟩
      [⟨"err2", "error"⟩] rfl (by decide) (by decide)⟩

/-- C14: `input_var_type` returns the name of the first input parameter, in declaration
order, whose rendered type equals the given type string, whatever comes after it, and the
empty string when no input has that rendered type. -/
theorem input_var_type_first (pkgName : String) (m : Method) (typ : String) :
    (∀ pre inp post, m.In = pre ++ inp :: post →
        (∀ p ∈ pre, parameterName pkgName p ≠ typ) →
        parameterName pkgName inp = typ →
        input_var_type pkgName m typ = inp.Name) ∧
      ((∀ p ∈ m.In, parameterName pkgName p ≠ typ) → input_var_type pkgName m typ = "") := by
  refine ⟨?_, ?_⟩
  · intro pre inp post hl hpre hinp
    unfold input_var_type
    rw [hl, find?_first _ inp post (by simp [hinp]) pre (fun a ha => by simp [hpre a ha])]
  · intro h
    unfold input_var_type
    have : m.In.find? (fun inp => parameterName pkgName inp == typ) = none := by
      rw [List.find?_eq_none]
      intro x hx
      simp [h x hx]
    rw [this]

/-- C14, evaluated on `exampleMethod`: the inputs `p` and `q` both render to `*Item`, and
the first one, `p`, is named; no input renders to `int`. -/
theorem input_var_type_first_witness :
    parameterName "svc" ⟨"p", "*svc.Item"⟩ = "*Item" ∧
      parameterName "svc" ⟨"q", "*Item"⟩ = "*Item" ∧
      input_var_type "svc" exampleMethod "*Item" = "p" ∧
      input_var_type "svc" exampleMethod "int" = "" :=
  ⟨by decide, by decide,
    (input_var_type_first "svc" exampleMethod "*Item").1
      [⟨"key", "string"⟩, ⟨"opts", "...svc.Option"⟩] ⟨"p", "*svc.Item"⟩ [⟨"q", "*Item"⟩]
      rfl (by decide) (by decide),
    (input_var_type_first "svc" exampleMethod "int").2 (by decide)⟩

/-- C15: `input_calls` is the join with `, `, in declaration order, of one token per
input parameter: the name followed by `...` when the rendered type of the parameter
starts with `...`, the bare name otherwise. -/
theorem input_calls_tokens (pkgName : String) (m : Method) :
    input_calls pkgName m
        = ", ".intercalate (m.In.map (fun p =>
            if "...".data <+: (parameterName pkgName p).data then p.Name ++ "..."
            else p.Name)) ∧
      input_calls "svc" exampleMethod = "key, opts..., p, q" := by
  refine ⟨?_, by decide⟩
  unfold input_calls
  simp only [stringsHasPrefix]
  rw [foldl_append_singleton (fun inp : Parameter =>
      if ("...".data.isPrefixOf (parameterName pkgName inp).data) = true then inp.Name ++ "..."
      else inp.Name),
    List.nil_append, stringsJoin_eq_intercalate]
  congr 1
  apply List.map_congr_left
  intro p _
  by_cases h : "...".data <+: (parameterName pkgName p).data
  · rw [if_pos h, if_pos (List.isPrefixOf_iff_prefix.mpr h)]
  · rw [if_neg h, if_neg (fun e => h (List.isPrefixOf_iff_prefix.mp e))]

/-- C16: `input_parameters` is the join with `, `, in declaration order, of name, a
space and the rendered type of every input parameter; it is empty for a method without
inputs. -/
theorem input_parameters_join (pkgName : String) (m : Method) :
    input_parameters pkgName m
        = ", ".intercalate (m.In.map (fun p => p.Name ++ " " ++ parameterName pkgName p)) ∧
      input_parameters pkgName { m with In := [] } = "" ∧
      input_parameters "svc" exampleMethod
        = "key string, opts ...Option, p *Item, q *Item" := by
  refine ⟨?_, rfl, by decide⟩
  unfold input_parameters
  simp only
  rw [foldl_append_singleton (fun inp : Parameter =>
      inp.Name ++ " " ++ parameterName pkgName inp),
    List.nil_append, stringsJoin_eq_intercalate]

/-- C17: `output_parameters` is `(`, then the join with `, `, in declaration order, of
name, a space and the rendered type of every output parameter, then `)`; it is `()` for a
method without outputs. -/
theorem output_parameters_join (pkgName : String) (m : Method) :
    output_parameters pkgName m
        = "(" ++ ", ".intercalate
            (m.Out.map (fun p => p.Name ++ " " ++ parameterName pkgName p)) ++ ")" ∧
      output_parameters pkgName { m with Out := [] } = "()" ∧
      output_parameters "svc" exampleMethod = "(v Value, err error, err2 error)" := by
  refine ⟨?_, rfl, by decide⟩
  unfold output_parameters
  simp only
  rw [foldl_append_singleton (fun out : Parameter =>
      out.Name ++ " " ++ parameterName pkgName out),
    List.nil_append, stringsJoin_eq_intercalate]

/-- C18: the package name in the package clause is `OverridePackage` when that is not
empty and `sanitize(Package.Name)` otherwise; the header block is the provenance lines,
the package clause and an import block with one line, in the original order, for
each import whose path differs from that name and none for an import whose path equals
it; and the buffer of `generator.Generate` starts with this block. -/
theorem header_package_and_imports (tc : Toolchain) (g : generator) (pkg : Package) :
    effectivePackageName tc g.opts pkg
        = (if g.opts.OverridePackage = "" then sanitize tc.unicode pkg.Name
            else g.opts.OverridePackage) ∧
      headerBlock tc g.opts pkg
        = "// Code generated by ifacecodegen tool. DO NOT EDIT." ++ "\n"
            ++ "// Source: " ++ g.opts.Source ++ "\n" ++ "\n"
            ++ "package " ++ effectivePackageName tc g.opts pkg ++ "\n" ++ "\n"
            ++ "import (" ++ "\n"
            ++ concatAll
                ((g.opts.Imports.filter
                    (fun imp => decide (imp.Path ≠ effectivePackageName tc g.opts pkg))).map
                  (fun imp => imp.Path ++ " " ++ tc.quote imp.Package ++ "\n"))
            ++ ")" ++ "\n" ∧
      (g.opts.Package = some pkg →
        ∃ rest, (g.Generate tc).2.buf = g.buf ++ headerBlock tc g.opts pkg ++ rest) := by
  refine ⟨?_, ?_, generator_Generate_header tc g pkg⟩
  · unfold effectivePackageName
    by_cases h : g.opts.OverridePackage = "" <;> simp [h]
  · unfold headerBlock generator.packageAndImports
    simp only [generator.p, importLines_eq, generator.provenance, String.append_assoc,
      String.empty_append]

/-- C18, evaluated on `exampleOptions`: the package is `svc`, the import with path `ctx`
has its line and the import with path `svc` has none. -/
theorem header_package_and_imports_witness :
    effectivePackageName toyToolchain exampleOptions examplePackage = "svc" ∧
      headerBlock toyToolchain exampleOptions examplePackage
        = "// Code generated by ifacecodegen tool. DO NOT EDIT.\n// Source: svc.go\n\n"
            ++ "package svc\n\nimport (\nctx \"context\"\n)\n" ∧
      ∃ rest, (generator.Generate toyToolchain ⟨"", exampleOptions⟩).2.buf
        = "" ++ headerBlock toyToolchain exampleOptions examplePackage ++ rest :=
  ⟨by decide, by decide,
    (header_package_and_imports toyToolchain ⟨"", exampleOptions⟩ examplePackage).2.2 rfl⟩

/-- C11: `generator.Output` runs import processing on the raw text and then formatting
on its result. When import processing fails it returns no bytes and an error whose
message holds the tool's error and the whole raw text; when formatting fails it returns
no bytes and an error whose message holds the tool's error and the whole text produced
by the import processing; when both succeed it returns the formatter's result and no
error. -/
theorem Output_reports (tc : Toolchain) (g : generator) :
    (∀ e, tc.process g.buf = Except.error e →
        g.Output tc = Outcome.returned none
            (some ("Failed to run imports on generated source code: " ++ e ++ "\n" ++ g.buf)) ∧
          e.data <:+: ("Failed to run imports on generated source code: " ++ e ++ "\n"
            ++ g.buf).data ∧
          g.buf.data <:+: ("Failed to run imports on generated source code: " ++ e ++ "\n"
            ++ g.buf).data) ∧
      (∀ src e, tc.process g.buf = Except.ok src → tc.format src = Except.error e →
        g.Output tc = Outcome.returned none
            (some ("Failed to format generated source code: " ++ e ++ "\n" ++ src)) ∧
          e.data <:+: ("Failed to format generated source code: " ++ e ++ "\n" ++ src).data ∧
          src.data <:+: ("Failed to format generated source code: " ++ e ++ "\n"
            ++ src).data) ∧
      (∀ src out, tc.process g.buf = Except.ok src → tc.format src = Except.ok out →
        g.Output tc = Outcome.returned (some out) none) := by
  have hin : ∀ a e d : String,
      e.data <:+: (a ++ e ++ "\n" ++ d).data ∧ d.data <:+: (a ++ e ++ "\n" ++ d).data := by
    intro a e d
    constructor
    · exact ⟨a.data, "\n".data ++ d.data, by simp⟩
    · exact ⟨a.data ++ e.data ++ "\n".data, [], by simp⟩
  refine ⟨?_, ?_, ?_⟩
  · intro e he
    refine ⟨?_, hin _ e g.buf⟩
    unfold generator.Output
    simp only [he]
  · intro src e hs he
    refine ⟨?_, hin _ e src⟩
    unfold generator.Output
    simp only [hs, he]
  · intro src out hs ho
    unfold generator.Output
    simp only [hs, ho]

/-- C11, evaluated on a toolchain whose import processing fails, and on one whose
formatting fails after import processing rewrote the text. -/
theorem Output_reports_witness :
    generator.Output { toyToolchain with process := fun _ => Except.error "bad import" }
        ⟨"package svc\n", exampleOptions⟩
      = Outcome.returned none
          (some "Failed to run imports on generated source code: bad import\npackage svc\n") ∧
    generator.Output
        { toyToolchain with
          process := fun s => Except.ok (s ++ "import ()\n"),
          format := fun _ => Except.error "bad syntax" }
        ⟨"package svc\n", exampleOptions⟩
      = Outcome.returned none
          (some ("Failed to format generated source code: bad syntax\n"
            ++ "package svc\nimport ()\n")) :=
  ⟨((Output_reports { toyToolchain with process := fun _ => Except.error "bad import" }
        ⟨"package svc\n", exampleOptions⟩).1 "bad import" rfl).1,
    ((Output_reports
        { toyToolchain with
          process := fun s => Except.ok (s ++ "import ()\n"),
          format := fun _ => Except.error "bad syntax" }
        ⟨"package svc\n", exampleOptions⟩).2.1 "package svc\nimport ()\n" "bad syntax"
        rfl rfl).1⟩

end Ifacecodegen
